import Mathlib

set_option maxHeartbeats 1000000

/- Shallow embedding of the branch-tree layout engine and canvas helpers of
   src/UI/components/MainLayout.tsx and src/UI/components/CanvasArea.tsx.
   JavaScript numbers are modelled as rationals; every arithmetic step taken
   by the embedded code paths is exact division or ring arithmetic, so the
   rational model agrees with the float semantics on the inputs considered.
   String-keyed records are modelled as association lists in insertion order,
   matching the enumeration order of Object.values and Object.entries: a write
   to a fresh key appends, a write to an existing key updates in place. -/

namespace Convex

/-- A 2-D point, as used for branch positions and the canvas offset. -/
structure Point where
  x : ℚ
  y : ℚ
deriving DecidableEq, Repr

/-- Message role, from the Message interface in MainLayout.tsx. -/
inductive Role where
  | user
  | assistant
deriving DecidableEq, Repr

/-- Message record from MainLayout.tsx.  The optional isInherited flag is
modelled as a Bool with the absent case identified with false, which is how
the code consumes it (only truthiness tests).  The timestamp is opaque to all
embedded logic and modelled as a natural number. -/
structure Message where
  id : String
  content : String
  role : Role
  timestamp : Nat
  isInherited : Bool
deriving DecidableEq, Repr

/-- Branch record from MainLayout.tsx. -/
structure Branch where
  id : String
  name : String
  parentBranchId : Option String
  parentMessageId : Option String
  messages : List Message
  summary : String
  position : Point
  level : Nat
deriving DecidableEq, Repr

/-- Conversation record from MainLayout.tsx.  The branches record is kept as
a list in insertion order (the order Object.values enumerates). -/
structure Conversation where
  id : String
  title : String
  lastMessage : String
  branches : List Branch
  activeBranchId : String
  canvasCenter : Point
deriving DecidableEq, Repr

/-- Position maps (Record of branch id to point) in insertion order. -/
abbrev PosMap := List (String × Point)

/-- Write into a string-keyed record: update in place when the key exists,
append otherwise.  This is the JavaScript object-assignment semantics that
Object.entries later observes. -/
def upsert : PosMap → String → Point → PosMap
  | [], k, v => [(k, v)]
  | (k0, v0) :: rest, k, v =>
      if k0 = k then (k, v) :: rest else (k0, v0) :: upsert rest k v

/-- Record lookup by key. -/
def lookupPos : PosMap → String → Option Point
  | [], _ => none
  | (k0, v0) :: rest, k => if k = k0 then some v0 else lookupPos rest k

-- Layout constants from calculateOptimalBranchPositions / resolveOverlaps.
def HORIZONTAL_SPACING : ℚ := 450
def VERTICAL_SPACING : ℚ := 150
def BLOCK_HEIGHT : ℚ := 380
def BLOCK_WIDTH : ℚ := 320
def MIN_SPACING : ℚ := 50

/-- The children adjacency derived from parentBranchId links: the ids of the
branches whose parentBranchId equals the given id, in enumeration order.
This is childrenMap of MainLayout.tsx lines 107-118. -/
def childrenOf (bs : List Branch) (pid : String) : List String :=
  (bs.filter (fun b => decide (b.parentBranchId = some pid))).map Branch.id

/-- The position assigned to the child at the given sibling index, from the
body of the forEach at MainLayout.tsx lines 147-162.  er and el are the
frozen counts of already placed positions to the right and left of the
parent. -/
def childXY (parentPos : Point) (startY : ℚ) (er el : Nat) (index : Nat) : Point :=
  let goRight : Bool := if index % 2 = 0 then decide (er ≤ el) else decide (el < er)
  let xOffset : ℚ := HORIZONTAL_SPACING * (if goRight then 1 else -1)
  ⟨parentPos.x + xOffset, startY + (index : ℚ) * VERTICAL_SPACING⟩

/-- The children.forEach loop of positionBranch: place each child, then
recurse into it (step is the recursive positioning call at one fuel less). -/
def positionKids (step : String → PosMap → PosMap)
    (place : Nat → String → PosMap → PosMap) : Nat → List String → PosMap → PosMap
  | _, [], positions => positions
  | idx, cid :: rest, positions =>
      positionKids step place (idx + 1) rest (step cid (place idx cid positions))

/-- positionBranch of MainLayout.tsx lines 128-167.  The JavaScript function
recurses on the (acyclic, by the tree invariant) children relation; the
embedding bounds that recursion by a fuel argument, instantiated with the
number of branches, which dominates the depth of every tree. -/
def positionChildren (bs : List Branch) : Nat → String → PosMap → PosMap
  | 0, _, positions => positions
  | fuel + 1, branchId, positions =>
      let children := childrenOf bs branchId
      if children.isEmpty then positions
      else
        match lookupPos positions branchId with
        | none => positions
        | some parentPos =>
            let totalChildren : ℚ := (children.length : ℚ)
            let totalHeight : ℚ := max (totalChildren * VERTICAL_SPACING) BLOCK_HEIGHT
            let startY : ℚ := parentPos.y - totalHeight / 2 + VERTICAL_SPACING / 2
            let existingRight := ((positions.map Prod.snd).filter
              (fun p => decide (parentPos.x < p.x))).length
            let existingLeft := ((positions.map Prod.snd).filter
              (fun p => decide (p.x < parentPos.x))).length
            positionKids (fun cid q => positionChildren bs fuel cid q)
              (fun idx cid q => upsert q cid (childXY parentPos startY existingRight existingLeft idx))
              0 children positions

/-- Overlap test of resolveOverlaps, MainLayout.tsx line 195. -/
def blocksOverlapB (p1 p2 : Point) : Bool :=
  decide (|p1.x - p2.x| < BLOCK_WIDTH + MIN_SPACING) &&
    decide (|p1.y - p2.y| < BLOCK_HEIGHT + MIN_SPACING)

/-- The replacement position for the second block of an overlapping pair,
MainLayout.tsx lines 196-209: keep x, move y to the first block y plus or
minus BLOCK_HEIGHT + MIN_SPACING. -/
def resolvedPos (pos1 pos2 : Point) : Point :=
  if pos1.y ≤ pos2.y then ⟨pos2.x, pos1.y + (BLOCK_HEIGHT + MIN_SPACING)⟩
  else ⟨pos2.x, pos1.y - (BLOCK_HEIGHT + MIN_SPACING)⟩

/-- One iteration of the inner loop body of resolveOverlaps: both compared
positions come from the original entries array, only the write goes to the
resolved record. -/
def resolvePair (resolved : PosMap) (e1 e2 : String × Point) : PosMap :=
  if blocksOverlapB e1.2 e2.2 then upsert resolved e2.1 (resolvedPos e1.2 e2.2)
  else resolved

/-- All index pairs i < j of a list, in the order the double loop of
resolveOverlaps visits them (outer i, inner j). -/
def orderedPairs : List (String × Point) → List ((String × Point) × (String × Point))
  | [] => []
  | e :: rest => rest.map (fun e2 => (e, e2)) ++ orderedPairs rest

/-- Uncurried loop body of resolveOverlaps. -/
def resolveStep (acc : PosMap) (pr : (String × Point) × (String × Point)) : PosMap :=
  resolvePair acc pr.1 pr.2

/-- resolveOverlaps of MainLayout.tsx lines 177-215: a single sweep over all
pairs of the original entries, writing adjusted second blocks into a copy. -/
def resolveOverlaps (positions : PosMap) : PosMap :=
  (orderedPairs positions).foldl resolveStep positions

/-- calculateOptimalBranchPositions of MainLayout.tsx lines 96-174, on the
enumerated branch list and the canvas center of the conversation.  With no
parentless branch the empty record is returned; otherwise the first
parentless branch is the root, placed at the canvas center, the tree is
positioned recursively and the overlap pass is applied. -/
def calculateOptimalBranchPositions (branches : List Branch) (canvasCenter : Point) : PosMap :=
  match branches.find? (fun b => b.parentBranchId.isNone) with
  | none => []
  | some rootBranch =>
      resolveOverlaps
        (positionChildren branches branches.length rootBranch.id
          (upsert [] rootBranch.id canvasCenter))

/-- Record write for the branches record of a conversation, keyed by id. -/
def upsertBranch : List Branch → Branch → List Branch
  | [], nb => [nb]
  | b :: rest, nb => if b.id = nb.id then nb :: rest else b :: upsertBranch rest nb

/-- handleCreateBranch of MainLayout.tsx lines 280-337.  The Date.now based
fresh id is a parameter.  The guard of line 281 is the lookup of the active
branch and the nonemptiness of its message list; lastMessage is the final
element of the message list. -/
def handleCreateBranch (conv : Conversation) (newBranchId : String) : Conversation :=
  match conv.branches.find? (fun b => decide (b.id = conv.activeBranchId)) with
  | none => conv
  | some activeBranch =>
      match activeBranch.messages.getLast? with
      | none => conv
      | some lastMessage =>
          let newLevel := activeBranch.level + 1
          let inheritedMessage : Message :=
            { lastMessage with id := "inherited-" ++ lastMessage.id, isInherited := true }
          let newBranch : Branch :=
            { id := newBranchId
              name := newBranchId
              parentBranchId := some activeBranch.id
              parentMessageId := some lastMessage.id
              messages := [inheritedMessage]
              summary := "Branch from: " ++ activeBranch.summary
              position := ⟨0, 0⟩
              level := newLevel }
          let updatedBranchList := upsertBranch conv.branches newBranch
          let newPositions := calculateOptimalBranchPositions updatedBranchList conv.canvasCenter
          let updatedBranches := updatedBranchList.map (fun b =>
            { b with position := (lookupPos newPositions b.id).getD b.position })
          { conv with activeBranchId := newBranchId, branches := updatedBranches }

/-- The branch record handleCreateBranch builds from the active branch and
its last message (MainLayout.tsx lines 288-303), spelled out for reasoning
about the handler. -/
def newBranchOf (ab : Branch) (m : Message) (newBranchId : String) : Branch :=
  { id := newBranchId, name := newBranchId, parentBranchId := some ab.id,
    parentMessageId := some m.id,
    messages := [{ m with id := "inherited-" ++ m.id, isInherited := true }],
    summary := "Branch from: " ++ ab.summary, position := ⟨0, 0⟩,
    level := ab.level + 1 }

/-- handleSwitchBranch of MainLayout.tsx lines 339-359: the conversation
update is an unconditional overwrite of activeBranchId (the rest of the
handler manages message highlighting, a separate piece of state). -/
def handleSwitchBranch (conv : Conversation) (branchId : String) : Conversation :=
  { conv with activeBranchId := branchId }

/-- The recenter effect of CanvasArea.tsx lines 51-64: when the active
conversation identity changes, look up the branch with id main and set the
offset absolutely so that branch lands at the viewport center; without a
main branch the offset is left as it was. -/
def recenterOffset (conversation : Conversation) (clientWidth clientHeight : ℚ)
    (prevOffset : Point) : Point :=
  match conversation.branches.find? (fun b => decide (b.id = "main")) with
  | some mainBranch =>
      ⟨clientWidth / 2 - mainBranch.position.x, clientHeight / 2 - mainBranch.position.y⟩
  | none => prevOffset

/-- Anchor points of a parent-child connection, calculateConnectionPoints of
CanvasArea.tsx lines 160-184.  The local BLOCK_WIDTH there is 160, half the
block width. -/
structure ConnectionPoints where
  startX : ℚ
  startY : ℚ
  endX : ℚ
  endY : ℚ
deriving DecidableEq, Repr

def calculateConnectionPoints (parentBranch childBranch : Branch) : ConnectionPoints :=
  let isChildOnRight := decide (parentBranch.position.x < childBranch.position.x)
  let isChildOnLeft := decide (childBranch.position.x < parentBranch.position.x)
  let startX : ℚ :=
    if isChildOnRight then parentBranch.position.x + 160
    else if isChildOnLeft then parentBranch.position.x - 160
    else parentBranch.position.x
  let endX : ℚ :=
    if isChildOnRight then childBranch.position.x - 160
    else if isChildOnLeft then childBranch.position.x + 160
    else childBranch.position.x
  ⟨startX, parentBranch.position.y, endX, childBranch.position.y⟩

/-- Control points and bounding box computed by the rendering pass of
CanvasArea.tsx lines 306-322.  The source also computes deltaY and a
Euclidean distance that feed into nothing; they are elided.  The literal 0.3
is the rational 3/10. -/
structure EdgeGeometry where
  startX : ℚ
  startY : ℚ
  endX : ℚ
  endY : ℚ
  controlX1 : ℚ
  controlX2 : ℚ
  minX : ℚ
  maxX : ℚ
  minY : ℚ
  maxY : ℚ
deriving DecidableEq, Repr

def connectionGeometry (parentBranch childBranch : Branch) : EdgeGeometry :=
  let c := calculateConnectionPoints parentBranch childBranch
  let deltaX : ℚ := |c.endX - c.startX|
  let controlOffset : ℚ := min (max (deltaX * (3 / 10)) 80) 150
  let isChildOnRight := decide (c.startX < c.endX)
  let controlX1 : ℚ := c.startX + (if isChildOnRight then controlOffset else -controlOffset)
  let controlX2 : ℚ := c.endX + (if isChildOnRight then -controlOffset else controlOffset)
  ⟨c.startX, c.startY, c.endX, c.endY, controlX1, controlX2,
    min c.startX c.endX - 50, max c.startX c.endX + 50,
    min c.startY c.endY - 50, max c.startY c.endY + 50⟩

/-- The shape data of a branch: the only fields the layout engine reads. -/
def branchShape (b : Branch) : String × Option String := (b.id, b.parentBranchId)

/-- No block takes part in two different pre-pass overlapping pairs of the
double loop. -/
def disjointOverlaps (ps : PosMap) : Prop :=
  ∀ p ∈ orderedPairs ps, ∀ q ∈ orderedPairs ps,
    blocksOverlapB p.1.2 p.2.2 = true → blocksOverlapB q.1.2 q.2.2 = true →
    p = q ∨ (p.1.1 ≠ q.1.1 ∧ p.1.1 ≠ q.2.1 ∧ p.2.1 ≠ q.1.1 ∧ p.2.1 ≠ q.2.1)

/-- The child reflected to the opposite horizontal side of the parent, at the
same vertical offset. -/
def mirrorChild (parentBranch childBranch : Branch) : Branch :=
  { childBranch with position :=
      ⟨2 * parentBranch.position.x - childBranch.position.x, childBranch.position.y⟩ }

/- Concrete inputs used by the claim theorems below. -/

/-- A bare branch with the given id and parent link. -/
def mkBranch (i : String) (p : Option String) : Branch :=
  { id := i, name := i, parentBranchId := p, parentMessageId := none,
    messages := [], summary := "", position := ⟨0, 0⟩, level := 0 }

def c1_bsA : List Branch :=
  [mkBranch "main" none, mkBranch "a" (some "main"), mkBranch "b" (some "main")]

def c1_bsB : List Branch :=
  [mkBranch "main" none, mkBranch "b" (some "main"), mkBranch "a" (some "main")]

def c1_bsC : List Branch :=
  [{ mkBranch "main" none with summary := "other", position := ⟨5, 6⟩, level := 3 },
   { mkBranch "a" (some "main") with name := "x", messages := [⟨"1", "hi", Role.user, 7, false⟩] },
   { mkBranch "b" (some "main") with summary := "y" }]

def c2_bs : List Branch :=
  [mkBranch "r1" none, mkBranch "r2" none, mkBranch "c" (some "r1")]

def c2_bs3 : List Branch :=
  [mkBranch "r1" none, mkBranch "r2" none, mkBranch "r3" none, mkBranch "c" (some "r1")]

def c3_conv0 : Conversation :=
  { id := "1", title := "New Conversation", lastMessage := "",
    branches := [{ mkBranch "main" none with
                     messages := [⟨"1", "hello", Role.user, 0, false⟩],
                     position := ⟨800, 400⟩ }],
    activeBranchId := "main", canvasCenter := ⟨800, 400⟩ }

/-- Two branch creations from the root: create b1 from main, switch back to
main, create b2 from main. -/
def c3_final : Conversation :=
  handleCreateBranch (handleSwitchBranch (handleCreateBranch c3_conv0 "b1") "main") "b2"

def c5_main : Branch := { mkBranch "main" none with position := ⟨800, 400⟩ }

def c5_g : Branch := mkBranch "g" (some "main")

def c5_d : Branch := mkBranch "d" (some "ghost")

def c5_bs : List Branch := [c5_main, c5_g, c5_d]

def c6_bs : List Branch := [mkBranch "main" none, mkBranch "a" (some "main")]

def c7_conv : Conversation :=
  { id := "1", title := "t", lastMessage := "",
    branches := [{ mkBranch "main" none with position := ⟨800, 400⟩ },
                 { mkBranch "b1" (some "main") with position := ⟨1250, 285⟩, level := 1 }],
    activeBranchId := "main", canvasCenter := ⟨800, 400⟩ }

def c8_conv : Conversation :=
  { id := "1", title := "t", lastMessage := "",
    branches := [{ mkBranch "main" none with
                     messages := [⟨"1", "hello", Role.user, 0, false⟩],
                     position := ⟨800, 400⟩ },
                 { mkBranch "b1" (some "main") with
                     parentMessageId := some "1",
                     messages := [⟨"u1", "newmsg", Role.user, 1, false⟩,
                                  ⟨"inherited-1", "hello", Role.assistant, 0, true⟩],
                     position := ⟨1250, 285⟩, level := 1 }],
    activeBranchId := "b1", canvasCenter := ⟨800, 400⟩ }

def c8_wconv : Conversation :=
  { id := "1", title := "t", lastMessage := "",
    branches := [{ mkBranch "main" none with
                     messages := [⟨"1", "hello", Role.user, 0, false⟩],
                     position := ⟨800, 400⟩ }],
    activeBranchId := "main", canvasCenter := ⟨800, 400⟩ }

def c9_p : Branch := mkBranch "p" none

def c9_c : Branch := { mkBranch "c" (some "p") with position := ⟨320, 100⟩ }

def c9_wc : Branch := { mkBranch "c" (some "p") with position := ⟨450, 100⟩ }

def c10_conv : Conversation :=
  { id := "1", title := "t", lastMessage := "",
    branches := [{ mkBranch "main" none with
                     messages := [⟨"1", "hello", Role.user, 0, false⟩],
                     position := ⟨800, 400⟩ }],
    activeBranchId := "main", canvasCenter := ⟨800, 400⟩ }

/- ------------------------------------------------------------------ -/
/- Record lemmas.                                                      -/
/- ------------------------------------------------------------------ -/

theorem lookupPos_upsert (m : PosMap) (k : String) (v : Point) (q : String) :
    lookupPos (upsert m k v) q = if q = k then some v else lookupPos m q := by
  induction m with
  | nil => simp [upsert, lookupPos]
  | cons e t ih =>
      obtain ⟨k0, v0⟩ := e
      by_cases h : k0 = k
      · subst h
        by_cases hq : q = k0 <;> simp [upsert, lookupPos, hq]
      · have h2 : upsert ((k0, v0) :: t) k v = (k0, v0) :: upsert t k v := by
          simp [upsert, h]
        rw [h2]
        simp only [lookupPos, ih]
        by_cases hq : q = k0
        · simp [hq, h]
        · by_cases hqk : q = k
          · have hkk : ¬ k = k0 := fun hh => hq (hqk.trans hh)
            simp [hq, hqk, hkk]
          · simp [hq, hqk]

theorem lookupPos_eq_none_iff (m : PosMap) (k : String) :
    lookupPos m k = none ↔ k ∉ m.map Prod.fst := by
  induction m with
  | nil => simp [lookupPos]
  | cons e t ih =>
      obtain ⟨k0, v0⟩ := e
      by_cases hq : k = k0 <;> simp [lookupPos, hq, ih]

theorem lookupPos_isSome_of_mem {m : PosMap} {e : String × Point} (h : e ∈ m) :
    (lookupPos m e.1).isSome := by
  induction m with
  | nil => simp at h
  | cons e0 t ih =>
      obtain ⟨k0, v0⟩ := e0
      rcases List.mem_cons.1 h with h | h
      · subst h; simp [lookupPos]
      · by_cases hq : e.1 = k0 <;> simp [lookupPos, hq, ih h]

theorem lookupPos_of_mem_nodup {m : PosMap} {e : String × Point}
    (h : e ∈ m) (hnd : (m.map Prod.fst).Nodup) : lookupPos m e.1 = some e.2 := by
  induction m with
  | nil => simp at h
  | cons e0 t ih =>
      obtain ⟨k0, v0⟩ := e0
      simp only [List.map_cons, List.nodup_cons] at hnd
      rcases List.mem_cons.1 h with h | h
      · subst h
        simp [lookupPos]
      · have hk : e.1 ≠ k0 := by
          intro hh
          exact hnd.1 (hh ▸ List.mem_map_of_mem Prod.fst h)
        simp [lookupPos, hk, ih h hnd.2]

theorem nodup_keys_upsert {m : PosMap} (k : String) (v : Point)
    (h : (m.map Prod.fst).Nodup) : ((upsert m k v).map Prod.fst).Nodup := by
  induction m with
  | nil => simp [upsert]
  | cons e t ih =>
      obtain ⟨k0, v0⟩ := e
      simp only [List.map_cons, List.nodup_cons] at h
      by_cases hk : k0 = k
      · subst hk
        simpa [upsert] using h
      · have hmem : ∀ q, q ∈ (upsert t k v).map Prod.fst → q = k ∨ q ∈ t.map Prod.fst := by
          intro q hq
          by_cases hqk : q = k
          · exact Or.inl hqk
          · refine Or.inr ?_
            rcases List.mem_map.1 hq with ⟨e', he', rfl⟩
            by_contra hnot
            have : lookupPos (upsert t k v) e'.1 = none := by
              rw [lookupPos_upsert]
              simp [hqk, (lookupPos_eq_none_iff t e'.1).2 hnot]
            have h2 := lookupPos_isSome_of_mem he'
            rw [this] at h2
            simp at h2
        simp only [upsert, hk, if_false, List.map_cons, List.nodup_cons]
        refine ⟨?_, ih h.2⟩
        intro hc
        rcases hmem _ hc with hc | hc
        · exact hk hc
        · exact h.1 hc

theorem upsert_cons_of_ne {e : String × Point} (t : PosMap) {k : String} (v : Point)
    (h : e.1 ≠ k) : upsert (e :: t) k v = e :: upsert t k v := by
  obtain ⟨k0, v0⟩ := e
  simp only [upsert]
  simp at h
  simp [h]

/- ------------------------------------------------------------------ -/
/- orderedPairs lemmas.                                                -/
/- ------------------------------------------------------------------ -/

theorem mem_orderedPairs {pr : (String × Point) × (String × Point)} :
    ∀ {l : PosMap}, pr ∈ orderedPairs l → pr.1 ∈ l ∧ pr.2 ∈ l := by
  intro l
  induction l with
  | nil => simp [orderedPairs]
  | cons e t ih =>
      intro h
      simp only [orderedPairs, List.mem_append, List.mem_map] at h
      rcases h with ⟨e2, he2, rfl⟩ | h
      · exact ⟨List.mem_cons_self e t, List.mem_cons_of_mem e he2⟩
      · exact ⟨List.mem_cons_of_mem e (ih h).1, List.mem_cons_of_mem e (ih h).2⟩

theorem snd_mem_tail_orderedPairs {e : String × Point} {t : PosMap}
    {pr : (String × Point) × (String × Point)}
    (h : pr ∈ orderedPairs (e :: t)) : pr.2 ∈ t := by
  simp only [orderedPairs, List.mem_append, List.mem_map] at h
  rcases h with ⟨e2, he2, rfl⟩ | h
  · exact he2
  · exact (mem_orderedPairs h).2

theorem fst_ne_snd_key_of_orderedPairs :
    ∀ {l : PosMap} {pr : (String × Point) × (String × Point)},
      (l.map Prod.fst).Nodup → pr ∈ orderedPairs l → pr.1.1 ≠ pr.2.1 := by
  intro l
  induction l with
  | nil => simp [orderedPairs]
  | cons e t ih =>
      intro pr hnd h
      simp only [List.map_cons, List.nodup_cons] at hnd
      simp only [orderedPairs, List.mem_append, List.mem_map] at h
      rcases h with ⟨e2, he2, rfl⟩ | h
      · intro hc
        exact hnd.1 (hc ▸ List.mem_map_of_mem Prod.fst he2)
      · exact ih hnd.2 h

/- ------------------------------------------------------------------ -/
/- resolveOverlaps fold lemmas.                                        -/
/- ------------------------------------------------------------------ -/

theorem resolvePair_lookup_ne {acc : PosMap} {e1 e2 : String × Point} {k : String}
    (h : blocksOverlapB e1.2 e2.2 = true → e2.1 ≠ k) :
    lookupPos (resolvePair acc e1 e2) k = lookupPos acc k := by
  unfold resolvePair
  by_cases hov : blocksOverlapB e1.2 e2.2 = true
  · rw [if_pos hov, lookupPos_upsert]
    have hne : ¬ k = e2.1 := fun hh => (h hov) hh.symm
    rw [if_neg hne]
  · simp [hov]

theorem foldl_resolve_lookup_eq {k : String} :
    ∀ (L : List ((String × Point) × (String × Point))) (acc : PosMap),
      (∀ pr ∈ L, blocksOverlapB pr.1.2 pr.2.2 = true → pr.2.1 ≠ k) →
      lookupPos (L.foldl resolveStep acc) k = lookupPos acc k := by
  intro L
  induction L with
  | nil => intro acc _; rfl
  | cons pr t ih =>
      intro acc h
      have h1 : lookupPos (resolveStep acc pr) k = lookupPos acc k :=
        resolvePair_lookup_ne (h pr (List.mem_cons_self pr t))
      simp only [List.foldl_cons]
      rw [ih (resolveStep acc pr) (fun q hq => h q (List.mem_cons_of_mem pr hq)), h1]

theorem foldl_resolve_stable {k : String} {v : Point} :
    ∀ (L : List ((String × Point) × (String × Point))) (acc : PosMap),
      lookupPos acc k = some v →
      (∀ pr ∈ L, blocksOverlapB pr.1.2 pr.2.2 = true → pr.2.1 = k →
        resolvedPos pr.1.2 pr.2.2 = v) →
      lookupPos (L.foldl resolveStep acc) k = some v := by
  intro L
  induction L with
  | nil => intro acc hv _; exact hv
  | cons pr t ih =>
      intro acc hv h
      refine ih (resolveStep acc pr) ?_ (fun q hq => h q (List.mem_cons_of_mem pr hq))
      unfold resolveStep resolvePair
      by_cases hov : blocksOverlapB pr.1.2 pr.2.2 = true
      · rw [if_pos hov, lookupPos_upsert]
        by_cases hk : k = pr.2.1
        · rw [if_pos hk, h pr (List.mem_cons_self pr t) hov hk.symm]
        · rw [if_neg hk]; exact hv
      · simp only [hov, if_false]; exact hv

theorem foldl_resolve_isSome {k : String} :
    ∀ (L : List ((String × Point) × (String × Point))) (acc : PosMap),
      (lookupPos acc k).isSome →
      (lookupPos (L.foldl resolveStep acc) k).isSome := by
  intro L
  induction L with
  | nil => intro acc h; exact h
  | cons pr t ih =>
      intro acc h
      refine ih (resolveStep acc pr) ?_
      unfold resolveStep resolvePair
      by_cases hov : blocksOverlapB pr.1.2 pr.2.2 = true
      · rw [if_pos hov, lookupPos_upsert]
        by_cases hk : k = pr.2.1 <;> simp [hk, h]
      · simpa [hov] using h

theorem foldl_resolve_x_inv {ps : PosMap} (hnd : (ps.map Prod.fst).Nodup) :
    ∀ (L : List ((String × Point) × (String × Point))) (acc : PosMap),
      (∀ pr ∈ L, pr.2 ∈ ps) →
      (∀ q, (lookupPos acc q).map Point.x = (lookupPos ps q).map Point.x) →
      ∀ q, (lookupPos (L.foldl resolveStep acc) q).map Point.x
            = (lookupPos ps q).map Point.x := by
  intro L
  induction L with
  | nil => intro acc _ hinv q; exact hinv q
  | cons pr t ih =>
      intro acc hmem hinv q
      refine ih (resolveStep acc pr) (fun e he => hmem e (List.mem_cons_of_mem pr he)) ?_ q
      intro q'
      unfold resolveStep resolvePair
      by_cases hov : blocksOverlapB pr.1.2 pr.2.2 = true
      · rw [if_pos hov, lookupPos_upsert]
        by_cases hk : q' = pr.2.1
        · subst hk
          rw [if_pos rfl]
          have hlook : lookupPos ps pr.2.1 = some pr.2.2 :=
            lookupPos_of_mem_nodup (hmem pr (List.mem_cons_self pr t)) hnd
          rw [hlook]
          unfold resolvedPos
          by_cases hyy : pr.1.2.y ≤ pr.2.2.y <;> simp [hyy]
        · rw [if_neg hk]; exact hinv q'
      · simp only [hov, if_false]; exact hinv q'

/- ------------------------------------------------------------------ -/
/- childrenOf lemmas.                                                  -/
/- ------------------------------------------------------------------ -/

theorem mem_childrenOf_iff {bs : List Branch} {pid cid : String} :
    cid ∈ childrenOf bs pid ↔ ∃ b ∈ bs, b.parentBranchId = some pid ∧ b.id = cid := by
  simp [childrenOf, List.mem_filter, List.mem_map]
  constructor
  · rintro ⟨b, ⟨hb, hp⟩, hid⟩
    exact ⟨b, hb, hp, hid⟩
  · rintro ⟨b, hb, hp, hid⟩
    exact ⟨b, ⟨hb, hp⟩, hid⟩

theorem childrenOf_subset_ids {bs : List Branch} {pid cid : String}
    (h : cid ∈ childrenOf bs pid) : cid ∈ bs.map Branch.id := by
  rcases mem_childrenOf_iff.1 h with ⟨b, hb, _, hid⟩
  exact hid ▸ List.mem_map_of_mem Branch.id hb

/- ------------------------------------------------------------------ -/
/- positionKids lemmas.                                                -/
/- ------------------------------------------------------------------ -/

theorem positionKids_append (step : String → PosMap → PosMap)
    (place : Nat → String → PosMap → PosMap) :
    ∀ (l1 l2 : List String) (idx : Nat) (q : PosMap),
      positionKids step place idx (l1 ++ l2) q
        = positionKids step place (idx + l1.length) l2 (positionKids step place idx l1 q) := by
  intro l1
  induction l1 with
  | nil => intro l2 idx q; simp [positionKids]
  | cons a t ih =>
      intro l2 idx q
      simp only [List.cons_append, positionKids, List.length_cons, List.append_eq]
      rw [ih]
      have h3 : idx + 1 + t.length = idx + (t.length + 1) := by omega
      rw [h3]

theorem positionKids_lookup_eq (step : String → PosMap → PosMap)
    (place : Nat → String → PosMap → PosMap) (k : String) :
    ∀ (L : List String) (idx : Nat) (q : PosMap),
      (∀ cid ∈ L, ∀ q', lookupPos (step cid q') k = lookupPos q' k) →
      (∀ i : Nat, ∀ cid ∈ L, ∀ q', lookupPos (place i cid q') k = lookupPos q' k) →
      lookupPos (positionKids step place idx L q) k = lookupPos q k := by
  intro L
  induction L with
  | nil => intro idx q _ _; rfl
  | cons a t ih =>
      intro idx q hstep hplace
      simp only [positionKids]
      rw [ih (idx + 1) _ (fun c hc => hstep c (List.mem_cons_of_mem a hc))
            (fun i c hc => hplace i c (List.mem_cons_of_mem a hc)),
          hstep a (List.mem_cons_self a t), hplace idx a (List.mem_cons_self a t)]

theorem positionKids_isSome (step : String → PosMap → PosMap)
    (place : Nat → String → PosMap → PosMap) (k : String)
    (hstep : ∀ cid q', (lookupPos q' k).isSome → (lookupPos (step cid q') k).isSome)
    (hplace : ∀ i cid q', (lookupPos q' k).isSome → (lookupPos (place i cid q') k).isSome) :
    ∀ (L : List String) (idx : Nat) (q : PosMap),
      (lookupPos q k).isSome → (lookupPos (positionKids step place idx L q) k).isSome := by
  intro L
  induction L with
  | nil => intro idx q h; exact h
  | cons a t ih =>
      intro idx q h
      exact ih (idx + 1) _ (hstep a _ (hplace idx a q h))

theorem positionKids_nodup (step : String → PosMap → PosMap)
    (place : Nat → String → PosMap → PosMap)
    (hstep : ∀ cid q', ((q'.map Prod.fst).Nodup) → (((step cid q').map Prod.fst).Nodup))
    (hplace : ∀ i cid q', ((q'.map Prod.fst).Nodup) → (((place i cid q').map Prod.fst).Nodup)) :
    ∀ (L : List String) (idx : Nat) (q : PosMap),
      ((q.map Prod.fst).Nodup) → (((positionKids step place idx L q).map Prod.fst).Nodup) := by
  intro L
  induction L with
  | nil => intro idx q h; exact h
  | cons a t ih =>
      intro idx q h
      exact ih (idx + 1) _ (hstep a _ (hplace idx a q h))

theorem positionKids_head (step : String → PosMap → PosMap)
    (place : Nat → String → PosMap → PosMap) (e : String × Point) :
    ∀ (L : List String) (idx : Nat) (q : PosMap),
      (∀ cid ∈ L, ∀ q', (∃ t0, q' = e :: t0) → ∃ t1, step cid q' = e :: t1) →
      (∀ i : Nat, ∀ cid ∈ L, ∀ q', (∃ t0, q' = e :: t0) → ∃ t1, place i cid q' = e :: t1) →
      (∃ t0, q = e :: t0) → ∃ t1, positionKids step place idx L q = e :: t1 := by
  intro L
  induction L with
  | nil => intro idx q _ _ h; exact h
  | cons a t ih =>
      intro idx q hstep hplace h
      exact ih (idx + 1) _ (fun c hc => hstep c (List.mem_cons_of_mem a hc))
        (fun i c hc => hplace i c (List.mem_cons_of_mem a hc))
        (hstep a (List.mem_cons_self a t) _ (hplace idx a (List.mem_cons_self a t) q h))

/- ------------------------------------------------------------------ -/
/- positionChildren lemmas.                                            -/
/- ------------------------------------------------------------------ -/

theorem positionChildren_succ_some (bs : List Branch) (fuel : Nat) (branchId : String)
    (positions : PosMap) (parentPos : Point)
    (hne : ¬ (childrenOf bs branchId).isEmpty = true)
    (hl : lookupPos positions branchId = some parentPos) :
    positionChildren bs (fuel + 1) branchId positions =
      positionKids (fun cid q => positionChildren bs fuel cid q)
        (fun idx cid q => upsert q cid (childXY parentPos
          (parentPos.y
            - max (((childrenOf bs branchId).length : ℚ) * VERTICAL_SPACING) BLOCK_HEIGHT / 2
            + VERTICAL_SPACING / 2)
          ((positions.map Prod.snd).filter (fun p => decide (parentPos.x < p.x))).length
          ((positions.map Prod.snd).filter (fun p => decide (p.x < parentPos.x))).length idx))
        0 (childrenOf bs branchId) positions := by
  simp only [positionChildren]
  rw [if_neg hne, hl]

theorem positionChildren_lookup_eq (bs : List Branch) (k : String)
    (hall : ∀ pid ∈ bs.map Branch.id, k ∉ childrenOf bs pid) :
    ∀ (fuel : Nat) (id0 : String) (acc : PosMap), k ∉ childrenOf bs id0 →
      lookupPos (positionChildren bs fuel id0 acc) k = lookupPos acc k := by
  intro fuel
  induction fuel with
  | zero => intro id0 acc _; rfl
  | succ fuel ih =>
      intro id0 acc hid
      simp only [positionChildren]
      by_cases hc : (childrenOf bs id0).isEmpty = true
      · simp [hc]
      · simp only [hc, if_false]
        cases hl : lookupPos acc id0 with
        | none => rfl
        | some parentPos =>
            refine positionKids_lookup_eq _ _ k _ 0 acc ?_ ?_
            · intro cid hcid q'
              exact ih cid q' (hall cid (childrenOf_subset_ids hcid))
            · intro i cid hcid q'
              rw [lookupPos_upsert]
              have hne : ¬ k = cid := fun hh => hid (hh ▸ hcid)
              rw [if_neg hne]

theorem positionChildren_isSome (bs : List Branch) (k : String) :
    ∀ (fuel : Nat) (id0 : String) (acc : PosMap),
      (lookupPos acc k).isSome → (lookupPos (positionChildren bs fuel id0 acc) k).isSome := by
  intro fuel
  induction fuel with
  | zero => intro id0 acc h; exact h
  | succ fuel ih =>
      intro id0 acc h
      simp only [positionChildren]
      by_cases hc : (childrenOf bs id0).isEmpty = true
      · simpa [hc] using h
      · simp only [hc, if_false]
        cases hl : lookupPos acc id0 with
        | none => exact h
        | some parentPos =>
            refine positionKids_isSome _ _ k (fun cid q' hq => ih cid q' hq) ?_ _ 0 acc h
            intro i cid q' hq
            rw [lookupPos_upsert]
            by_cases hk : k = cid <;> simp [hk, hq]

theorem positionChildren_nodup (bs : List Branch) :
    ∀ (fuel : Nat) (id0 : String) (acc : PosMap),
      ((acc.map Prod.fst).Nodup) →
      (((positionChildren bs fuel id0 acc).map Prod.fst).Nodup) := by
  intro fuel
  induction fuel with
  | zero => intro id0 acc h; exact h
  | succ fuel ih =>
      intro id0 acc h
      simp only [positionChildren]
      by_cases hc : (childrenOf bs id0).isEmpty = true
      · simpa [hc] using h
      · simp only [hc, if_false]
        cases hl : lookupPos acc id0 with
        | none => exact h
        | some parentPos =>
            exact positionKids_nodup _ _ (fun cid q' hq => ih cid q' hq)
              (fun i cid q' hq => nodup_keys_upsert _ _ hq) _ 0 acc h

theorem positionChildren_head (bs : List Branch) (e : String × Point)
    (hall : ∀ pid ∈ bs.map Branch.id, e.1 ∉ childrenOf bs pid) :
    ∀ (fuel : Nat) (id0 : String) (acc : PosMap), e.1 ∉ childrenOf bs id0 →
      (∃ t0, acc = e :: t0) → ∃ t1, positionChildren bs fuel id0 acc = e :: t1 := by
  intro fuel
  induction fuel with
  | zero => intro id0 acc _ h; exact h
  | succ fuel ih =>
      intro id0 acc hid h
      simp only [positionChildren]
      by_cases hc : (childrenOf bs id0).isEmpty = true
      · simpa [hc] using h
      · simp only [hc, if_false]
        cases hl : lookupPos acc id0 with
        | none => exact h
        | some parentPos =>
            refine positionKids_head _ _ e _ 0 acc ?_ ?_ h
            · intro cid hcid q' hq
              exact ih cid q' (hall cid (childrenOf_subset_ids hcid)) hq
            · intro i cid hcid q' hq
              obtain ⟨t0, rfl⟩ := hq
              have hne : e.1 ≠ cid := fun hh => hid (hh ▸ hcid)
              exact ⟨upsert t0 cid _, upsert_cons_of_ne t0 _ hne⟩

/-- Descendant relation along parent links: Desc bs a b k holds when there is
a chain of k child steps from a down to b inside the branch list bs. -/
inductive Desc (bs : List Branch) : Branch → Branch → Nat → Prop where
  | refl (a : Branch) : Desc bs a a 0
  | step (a c b : Branch) (k : Nat) (hc : c ∈ bs) (hp : c.parentBranchId = some a.id)
      (hd : Desc bs c b k) : Desc bs a b (k + 1)

theorem positionChildren_reaches (bs : List Branch) :
    ∀ {k : Nat} {a b : Branch}, Desc bs a b k →
      ∀ (fuel : Nat) (acc : PosMap), k ≤ fuel → (lookupPos acc a.id).isSome →
        (lookupPos (positionChildren bs fuel a.id acc) b.id).isSome := by
  intro k a b hdesc
  induction hdesc with
  | refl a =>
      intro fuel acc _ h
      exact positionChildren_isSome bs a.id fuel a.id acc h
  | step a c b kk hc hp _ ih =>
      intro fuel acc hk hsome
      cases fuel with
      | zero => omega
      | succ f =>
          have hcid : c.id ∈ childrenOf bs a.id :=
            mem_childrenOf_iff.2 ⟨c, hc, hp, rfl⟩
          have hne : ¬ (childrenOf bs a.id).isEmpty = true := by
            intro hh
            rw [List.isEmpty_iff] at hh
            rw [hh] at hcid
            simp at hcid
          obtain ⟨pp, hpp⟩ := Option.isSome_iff_exists.1 hsome
          rw [positionChildren_succ_some bs f a.id acc pp hne hpp]
          obtain ⟨l1, l2, hsplit⟩ := List.append_of_mem hcid
          rw [hsplit, positionKids_append]
          simp only [positionKids]
          refine positionKids_isSome _ _ b.id
            (fun cid q' hq => positionChildren_isSome bs b.id f cid q' hq) ?_ l2 _ _ ?_
          · intro i cid q' hq
            rw [lookupPos_upsert]
            by_cases hkk : b.id = cid <;> simp [hkk, hq]
          · refine ih f _ (by omega) ?_
            rw [lookupPos_upsert]
            simp

/- ------------------------------------------------------------------ -/
/- resolveOverlaps wrappers and layout-level lemmas.                   -/
/- ------------------------------------------------------------------ -/

theorem resolveOverlaps_isSome {ps : PosMap} {k : String}
    (h : (lookupPos ps k).isSome) : (lookupPos (resolveOverlaps ps) k).isSome :=
  foldl_resolve_isSome (orderedPairs ps) ps h

theorem resolveOverlaps_lookup_none {ps : PosMap} {k : String}
    (h : lookupPos ps k = none) : lookupPos (resolveOverlaps ps) k = none := by
  have hk : k ∉ ps.map Prod.fst := (lookupPos_eq_none_iff ps k).1 h
  have h2 := @foldl_resolve_lookup_eq k (orderedPairs ps) ps (by
    intro pr hpr _ hkk
    apply absurd _ hk
    rw [← hkk]
    exact List.mem_map_of_mem Prod.fst (mem_orderedPairs hpr).2)
  unfold resolveOverlaps
  rw [h2, h]

theorem resolveOverlaps_head {e : String × Point} {t : PosMap}
    (hk : e.1 ∉ t.map Prod.fst) :
    lookupPos (resolveOverlaps (e :: t)) e.1 = some e.2 := by
  have h2 := @foldl_resolve_lookup_eq e.1 (orderedPairs (e :: t)) (e :: t) (by
    intro pr hpr _ hkk
    apply absurd _ hk
    rw [← hkk]
    exact List.mem_map_of_mem Prod.fst (snd_mem_tail_orderedPairs hpr))
  unfold resolveOverlaps
  rw [h2]
  simp [lookupPos]

theorem find?_eq_head?_filter {α : Type} (l : List α) (p : α → Bool) :
    l.find? p = (l.filter p).head? := by
  induction l with
  | nil => rfl
  | cons a t ih =>
      by_cases h : p a = true
      · rw [List.find?_cons_of_pos _ h, List.filter_cons_of_pos h]
        rfl
      · rw [List.find?_cons_of_neg _ h, List.filter_cons_of_neg h, ih]

theorem branch_id_inj {bs : List Branch} (hnd : (bs.map Branch.id).Nodup)
    {b1 b2 : Branch} (h1 : b1 ∈ bs) (h2 : b2 ∈ bs) (h : b1.id = b2.id) : b1 = b2 :=
  List.inj_on_of_nodup_map hnd h1 h2 h

/-- A parentless branch of a list with duplicate-free ids is never a child of
anything in the children adjacency. -/
theorem parentless_not_child {bs : List Branch} {r : Branch}
    (hnd : (bs.map Branch.id).Nodup) (hrmem : r ∈ bs)
    (hrnone : r.parentBranchId = none) :
    ∀ pid, r.id ∉ childrenOf bs pid := by
  intro pid hmem
  rcases mem_childrenOf_iff.1 hmem with ⟨b, hb, hbp, hbid⟩
  have hbr : b = r := branch_id_inj hnd hb hrmem hbid
  rw [hbr, hrnone] at hbp
  simp at hbp

/-- The full layout maps the first parentless branch exactly to the canvas
center: the tree walk never writes the root key, and the overlap pass only
writes second components of pairs, which all live in the tail behind the
root entry. -/
theorem calculate_eq_of_find {bs : List Branch} {c : Point} {r : Branch}
    (hfind : bs.find? (fun b => b.parentBranchId.isNone) = some r) :
    calculateOptimalBranchPositions bs c
      = resolveOverlaps (positionChildren bs bs.length r.id [(r.id, c)]) := by
  unfold calculateOptimalBranchPositions
  rw [hfind]
  rfl

theorem calculate_eq_of_find_none {bs : List Branch} {c : Point}
    (hfind : bs.find? (fun b => b.parentBranchId.isNone) = none) :
    calculateOptimalBranchPositions bs c = [] := by
  unfold calculateOptimalBranchPositions
  rw [hfind]

theorem layout_root_lookup (bs : List Branch) (c : Point) (r : Branch)
    (hnd : (bs.map Branch.id).Nodup)
    (hfind : bs.find? (fun b => b.parentBranchId.isNone) = some r) :
    lookupPos (calculateOptimalBranchPositions bs c) r.id = some c := by
  have hrmem : r ∈ bs := List.mem_of_find?_eq_some hfind
  have hrnone : r.parentBranchId = none := by
    have := List.find?_some hfind
    simpa using this
  have hnotchild := parentless_not_child hnd hrmem hrnone
  rw [calculate_eq_of_find hfind]
  obtain ⟨t1, ht1⟩ :=
    positionChildren_head bs (r.id, c) (fun pid _ => hnotchild pid)
      bs.length r.id [(r.id, c)] (hnotchild r.id) ⟨[], rfl⟩
  have hnodup : (((positionChildren bs bs.length r.id [(r.id, c)]).map Prod.fst)).Nodup :=
    positionChildren_nodup bs bs.length r.id _ (by simp)
  rw [ht1] at hnodup
  have hkeys : r.id ∉ t1.map Prod.fst := by
    simp only [List.map_cons, List.nodup_cons] at hnodup
    exact hnodup.1
  rw [ht1]
  exact resolveOverlaps_head hkeys


/- ------------------------------------------------------------------ -/
/- Shape congruence of the layout engine.                              -/
/- ------------------------------------------------------------------ -/

theorem childrenOf_congr :
    ∀ {bs bs' : List Branch}, bs.map branchShape = bs'.map branchShape →
      ∀ pid, childrenOf bs pid = childrenOf bs' pid := by
  intro bs
  induction bs with
  | nil =>
      intro bs' h pid
      cases bs' with
      | nil => rfl
      | cons b' t' => simp at h
  | cons b t ih =>
      intro bs' h pid
      cases bs' with
      | nil => simp at h
      | cons b' t' =>
          simp only [List.map_cons, List.cons.injEq] at h
          have hid : b.id = b'.id := congrArg Prod.fst h.1
          have hp : b.parentBranchId = b'.parentBranchId := congrArg Prod.snd h.1
          have ht := ih h.2 pid
          simp only [childrenOf, List.filter_cons] at ht ⊢
          rw [hp]
          by_cases hc : b'.parentBranchId = some pid
          · simp [hc, hid, ht]
          · simp [hc, ht]

theorem find?_root_shape :
    ∀ {bs bs' : List Branch}, bs.map branchShape = bs'.map branchShape →
      Option.map Branch.id (bs.find? (fun b => b.parentBranchId.isNone))
        = Option.map Branch.id (bs'.find? (fun b => b.parentBranchId.isNone)) := by
  intro bs
  induction bs with
  | nil =>
      intro bs' h
      cases bs' with
      | nil => rfl
      | cons b' t' => simp at h
  | cons b t ih =>
      intro bs' h
      cases bs' with
      | nil => simp at h
      | cons b' t' =>
          simp only [List.map_cons, List.cons.injEq] at h
          have hid : b.id = b'.id := congrArg Prod.fst h.1
          have hp : b.parentBranchId = b'.parentBranchId := congrArg Prod.snd h.1
          by_cases hn : b.parentBranchId.isNone = true
          · have hn' : b'.parentBranchId.isNone = true := by rw [← hp]; exact hn
            have e1 : (b :: t).find? (fun x => x.parentBranchId.isNone) = some b :=
              List.find?_cons_of_pos _ hn
            have e2 : (b' :: t').find? (fun x => x.parentBranchId.isNone) = some b' :=
              List.find?_cons_of_pos _ hn'
            rw [e1, e2]
            simp [hid]
          · have hn' : ¬ b'.parentBranchId.isNone = true := by rw [← hp]; exact hn
            have e1 : (b :: t).find? (fun x => x.parentBranchId.isNone)
                = t.find? (fun x => x.parentBranchId.isNone) :=
              List.find?_cons_of_neg _ hn
            have e2 : (b' :: t').find? (fun x => x.parentBranchId.isNone)
                = t'.find? (fun x => x.parentBranchId.isNone) :=
              List.find?_cons_of_neg _ hn'
            rw [e1, e2]
            exact ih h.2

theorem positionKids_congr_step {step step' : String → PosMap → PosMap}
    {place : Nat → String → PosMap → PosMap}
    (h : ∀ cid q, step cid q = step' cid q) :
    ∀ (L : List String) (idx : Nat) (q : PosMap),
      positionKids step place idx L q = positionKids step' place idx L q := by
  intro L
  induction L with
  | nil => intro idx q; rfl
  | cons a t ih =>
      intro idx q
      simp only [positionKids]
      rw [h, ih]

theorem positionChildren_congr {bs bs' : List Branch}
    (hch : ∀ pid, childrenOf bs pid = childrenOf bs' pid) :
    ∀ (fuel : Nat) (id0 : String) (acc : PosMap),
      positionChildren bs fuel id0 acc = positionChildren bs' fuel id0 acc := by
  intro fuel
  induction fuel with
  | zero => intro id0 acc; rfl
  | succ fuel ih =>
      intro id0 acc
      simp only [positionChildren, hch id0]
      by_cases hc : (childrenOf bs' id0).isEmpty = true
      · simp [hc]
      · simp only [hc, if_false]
        cases hl : lookupPos acc id0 with
        | none => rfl
        | some parentPos => exact positionKids_congr_step (fun cid q => ih cid q) _ 0 acc

/- ------------------------------------------------------------------ -/
/- handleCreateBranch helper lemmas.                                   -/
/- ------------------------------------------------------------------ -/

theorem upsertBranch_append {bs : List Branch} {nb : Branch}
    (h : nb.id ∉ bs.map Branch.id) : upsertBranch bs nb = bs ++ [nb] := by
  induction bs with
  | nil => rfl
  | cons a t ih =>
      simp only [List.map_cons, List.mem_cons] at h
      obtain ⟨h1, h2⟩ := not_or.1 h
      unfold upsertBranch
      rw [if_neg (fun hh => h1 hh.symm), ih h2]
      rfl

theorem upsertBranch_exists_id (bs : List Branch) (nb : Branch) :
    ∃ b ∈ upsertBranch bs nb, b.id = nb.id := by
  induction bs with
  | nil => exact ⟨nb, by simp [upsertBranch]⟩
  | cons a t ih =>
      unfold upsertBranch
      by_cases h : a.id = nb.id
      · rw [if_pos h]
        exact ⟨nb, List.mem_cons_self _ _, rfl⟩
      · rw [if_neg h]
        obtain ⟨b, hb, hbid⟩ := ih
        exact ⟨b, List.mem_cons_of_mem a hb, hbid⟩

theorem find?_id_of_mem {bs : List Branch} {b : Branch} (hnd : (bs.map Branch.id).Nodup)
    (hb : b ∈ bs) : bs.find? (fun x => decide (x.id = b.id)) = some b := by
  induction bs with
  | nil => simp at hb
  | cons a t ih =>
      simp only [List.map_cons, List.nodup_cons] at hnd
      rcases List.mem_cons.1 hb with rfl | hbt
      · have e1 : (b :: t).find? (fun x => decide (x.id = b.id)) = some b :=
          List.find?_cons_of_pos _ (by simp)
        rw [e1]
      · have hne : ¬ a.id = b.id :=
          fun hh => hnd.1 (hh ▸ List.mem_map_of_mem Branch.id hbt)
        have e1 : (a :: t).find? (fun x => decide (x.id = b.id))
            = t.find? (fun x => decide (x.id = b.id)) :=
          List.find?_cons_of_neg _ (by simp [hne])
        rw [e1]
        exact ih hnd.2 hbt

theorem find?_id_map_append (bs : List Branch) (nb : Branch) (i : String)
    (f : Branch → Branch)
    (hf : ∀ b, (f b).id = b.id) (hid : nb.id = i)
    (h : i ∉ bs.map Branch.id) :
    ((bs ++ [nb]).map f).find? (fun b => decide (b.id = i)) = some (f nb) := by
  induction bs with
  | nil =>
      simp only [List.nil_append, List.map_cons, List.map_nil]
      have e1 : (f nb :: ([] : List Branch)).find? (fun b => decide (b.id = i))
          = some (f nb) :=
        List.find?_cons_of_pos _ (by simp [hf, hid])
      rw [e1]
  | cons a t ih =>
      simp only [List.map_cons, List.mem_cons] at h
      obtain ⟨h1, h2⟩ := not_or.1 h
      simp only [List.cons_append, List.map_cons]
      have hne : ¬ ((f a).id = i) := by
        rw [hf]
        exact fun hh => h1 hh.symm
      have e1 : (f a :: (t ++ [nb]).map f).find? (fun b => decide (b.id = i))
          = ((t ++ [nb]).map f).find? (fun b => decide (b.id = i)) :=
        List.find?_cons_of_neg _ (by simp [hne])
      rw [e1]
      exact ih h2

theorem handleCreateBranch_eq (conv : Conversation) (newBranchId : String)
    (ab : Branch) (m : Message)
    (hact : conv.branches.find? (fun b => decide (b.id = conv.activeBranchId)) = some ab)
    (hlast : ab.messages.getLast? = some m) :
    handleCreateBranch conv newBranchId =
      { conv with
          activeBranchId := newBranchId,
          branches := (upsertBranch conv.branches (newBranchOf ab m newBranchId)).map
            (fun b =>
              { b with position :=
                  (lookupPos
                    (calculateOptimalBranchPositions
                      (upsertBranch conv.branches (newBranchOf ab m newBranchId))
                      conv.canvasCenter)
                    b.id).getD b.position }) } := by
  simp only [handleCreateBranch, hact, hlast, newBranchOf]

theorem handleCreateBranch_branches_eq (conv : Conversation) (newBranchId : String)
    (ab : Branch) (m : Message)
    (hact : conv.branches.find? (fun b => decide (b.id = conv.activeBranchId)) = some ab)
    (hlast : ab.messages.getLast? = some m) :
    (handleCreateBranch conv newBranchId).branches
      = (upsertBranch conv.branches (newBranchOf ab m newBranchId)).map
          (fun b =>
            { b with position :=
                (lookupPos
                  (calculateOptimalBranchPositions
                    (upsertBranch conv.branches (newBranchOf ab m newBranchId))
                    conv.canvasCenter)
                  b.id).getD b.position }) := by
  rw [handleCreateBranch_eq conv newBranchId ab m hact hlast]

theorem handleCreateBranch_active_eq (conv : Conversation) (newBranchId : String)
    (ab : Branch) (m : Message)
    (hact : conv.branches.find? (fun b => decide (b.id = conv.activeBranchId)) = some ab)
    (hlast : ab.messages.getLast? = some m) :
    (handleCreateBranch conv newBranchId).activeBranchId = newBranchId := by
  rw [handleCreateBranch_eq conv newBranchId ab m hact hlast]


/- ------------------------------------------------------------------ -/
/- Claims.                                                             -/
/- ------------------------------------------------------------------ -/

/-- C1 (amended): the layout output is a pure function of the enumerated
shape data alone: two branch lists whose enumerations carry identical
(id, parentBranchId) sequences in the same order yield identical layouts,
whatever their messages, names, levels or stored positions.  Determinism
across different iteration orders of the same tree shape fails on the code:
see the counterexample, where swapping two siblings in the enumeration
moves a branch. -/
theorem c1_layout_shape_determinism (bs bs' : List Branch) (c : Point)
    (h : bs.map branchShape = bs'.map branchShape) :
    calculateOptimalBranchPositions bs c = calculateOptimalBranchPositions bs' c := by
  have hch := childrenOf_congr h
  have hfind := find?_root_shape h
  have hlen : bs.length = bs'.length := by
    have h2 := congrArg List.length h
    simpa using h2
  cases hf : bs.find? (fun b => b.parentBranchId.isNone) with
  | none =>
      have hf2 : bs'.find? (fun b => b.parentBranchId.isNone) = none := by
        rw [hf] at hfind
        cases hf3 : bs'.find? (fun b => b.parentBranchId.isNone) with
        | none => rfl
        | some r' => rw [hf3] at hfind; simp at hfind
      rw [calculate_eq_of_find_none hf, calculate_eq_of_find_none hf2]
  | some r =>
      cases hf2 : bs'.find? (fun b => b.parentBranchId.isNone) with
      | none => rw [hf, hf2] at hfind; simp at hfind
      | some r' =>
          rw [hf, hf2] at hfind
          simp only [Option.map_some'] at hfind
          have hid : r.id = r'.id := Option.some.inj hfind
          rw [calculate_eq_of_find hf, calculate_eq_of_find hf2, hid, hlen,
            positionChildren_congr hch]

/-- C1 witness: two enumerations with the same shape data but different
names, summaries, messages, levels and stored positions produce the same
layout. -/
theorem c1_witness :
    calculateOptimalBranchPositions c1_bsA ⟨800, 400⟩
      = calculateOptimalBranchPositions c1_bsC ⟨800, 400⟩ :=
  c1_layout_shape_determinism c1_bsA c1_bsC ⟨800, 400⟩ (by decide)

/-- C1 counterexample: the same tree shape (a root with children a and b)
enumerated in two orders gives branch a the position (1250, 285) in one
order and (350, 435) in the other, so the layout is not independent of the
iteration order of the branches mapping. -/
theorem c1_counterexample :
    c1_bsA.map branchShape = [("main", none), ("a", some "main"), ("b", some "main")]
    ∧ c1_bsB.map branchShape = [("main", none), ("b", some "main"), ("a", some "main")]
    ∧ lookupPos (calculateOptimalBranchPositions c1_bsA ⟨800, 400⟩) "a" = some ⟨1250, 285⟩
    ∧ lookupPos (calculateOptimalBranchPositions c1_bsB ⟨800, 400⟩) "a" = some ⟨350, 435⟩
    ∧ (⟨1250, 285⟩ : Point) ≠ ⟨350, 435⟩ := by
  refine ⟨by decide, by decide, ?_, ?_, by decide⟩
  · norm_num +decide [calculateOptimalBranchPositions, positionChildren, positionKids,
      childrenOf, childXY, upsert, lookupPos, resolveOverlaps, orderedPairs, resolveStep,
      resolvePair, resolvedPos, blocksOverlapB, HORIZONTAL_SPACING, VERTICAL_SPACING,
      BLOCK_HEIGHT, BLOCK_WIDTH, MIN_SPACING, List.find?_cons, List.filter_cons,
      c1_bsA, mkBranch]
  · norm_num +decide [calculateOptimalBranchPositions, positionChildren, positionKids,
      childrenOf, childXY, upsert, lookupPos, resolveOverlaps, orderedPairs, resolveStep,
      resolvePair, resolvedPos, blocksOverlapB, HORIZONTAL_SPACING, VERTICAL_SPACING,
      BLOCK_HEIGHT, BLOCK_WIDTH, MIN_SPACING, List.find?_cons, List.filter_cons,
      c1_bsB, mkBranch]

/-- C2 (amended): the layout call never signals an error.  With zero
parentless branches it returns the empty mapping; with two or more
parentless branches the first in enumeration order is used as the root and
placed exactly at the canvas center, while every other parentless branch is
absent from the returned mapping -- a partial layout, not a NoRoot
failure. -/
theorem c2_no_root_behavior (bs : List Branch) (c : Point)
    (hnd : (bs.map Branch.id).Nodup) :
    (bs.filter (fun b => b.parentBranchId.isNone) = [] →
        calculateOptimalBranchPositions bs c = [])
    ∧ (∀ r r' rest, bs.filter (fun b => b.parentBranchId.isNone) = r :: r' :: rest →
        lookupPos (calculateOptimalBranchPositions bs c) r.id = some c
        ∧ ∀ b ∈ r' :: rest, lookupPos (calculateOptimalBranchPositions bs c) b.id = none) := by
  constructor
  · intro hfil
    have hfind : bs.find? (fun b => b.parentBranchId.isNone) = none := by
      rw [find?_eq_head?_filter, hfil]
      rfl
    exact calculate_eq_of_find_none hfind
  · intro r r' rest hfil
    have hfind : bs.find? (fun b => b.parentBranchId.isNone) = some r := by
      rw [find?_eq_head?_filter, hfil]
      rfl
    refine ⟨layout_root_lookup bs c r hnd hfind, ?_⟩
    intro b hb
    have hbf : b ∈ bs.filter (fun x => x.parentBranchId.isNone) := by
      rw [hfil]
      exact List.mem_cons_of_mem _ hb
    have hbmem : b ∈ bs := (List.mem_filter.1 hbf).1
    have hbnone : b.parentBranchId = none := by
      have h2 := (List.mem_filter.1 hbf).2
      simpa using h2
    have hrmem : r ∈ bs := List.mem_of_find?_eq_some hfind
    have hne : b.id ≠ r.id := by
      intro hh
      have hbr : b = r := branch_id_inj hnd hbmem hrmem hh
      have hbsnd : bs.Nodup := List.Nodup.of_map _ hnd
      have hfnd : (bs.filter (fun x => x.parentBranchId.isNone)).Nodup := hbsnd.filter _
      rw [hfil] at hfnd
      rcases List.nodup_cons.1 hfnd with ⟨hnotin, _⟩
      apply hnotin
      rw [← hbr]
      exact hb
    have hnotchild := parentless_not_child hnd hbmem hbnone
    rw [calculate_eq_of_find hfind]
    apply resolveOverlaps_lookup_none
    rw [positionChildren_lookup_eq bs b.id (fun pid _ => hnotchild pid) bs.length r.id
        [(r.id, c)] (hnotchild r.id)]
    simp [lookupPos, hne]

/-- C2 witness: on a mapping with three roots r1, r2, r3 and a child of r1,
the layout places r1 at the canvas center while r2 and r3 -- every
parentless branch beyond the first -- receive no position. -/
theorem c2_witness :
    lookupPos (calculateOptimalBranchPositions c2_bs3 ⟨800, 400⟩) "r1" = some ⟨800, 400⟩
    ∧ lookupPos (calculateOptimalBranchPositions c2_bs3 ⟨800, 400⟩) "r2" = none
    ∧ lookupPos (calculateOptimalBranchPositions c2_bs3 ⟨800, 400⟩) "r3" = none := by
  have h := (c2_no_root_behavior c2_bs3 ⟨800, 400⟩ (by decide)).2
    (mkBranch "r1" none) (mkBranch "r2" none) [mkBranch "r3" none] (by decide)
  exact ⟨h.1,
    h.2 (mkBranch "r2" none) (List.mem_cons_self _ _),
    h.2 (mkBranch "r3" none) (List.mem_cons_of_mem _ (List.mem_cons_self _ _))⟩

/-- C2 counterexample: with two roots the call returns a nonempty partial
layout (r1 and its child positioned, r2 silently missing) instead of
failing with a NoRoot error surfaced to the caller. -/
theorem c2_counterexample :
    calculateOptimalBranchPositions c2_bs ⟨800, 400⟩
      = [("r1", ⟨800, 400⟩), ("c", ⟨1250, 285⟩)]
    ∧ lookupPos (calculateOptimalBranchPositions c2_bs ⟨800, 400⟩) "r2" = none := by
  constructor
  · norm_num +decide [calculateOptimalBranchPositions, positionChildren, positionKids,
      childrenOf, childXY, upsert, lookupPos, resolveOverlaps, orderedPairs, resolveStep,
      resolvePair, resolvedPos, blocksOverlapB, HORIZONTAL_SPACING, VERTICAL_SPACING,
      BLOCK_HEIGHT, BLOCK_WIDTH, MIN_SPACING, List.find?_cons, List.filter_cons,
      c2_bs, mkBranch]
  · norm_num +decide [calculateOptimalBranchPositions, positionChildren, positionKids,
      childrenOf, childXY, upsert, lookupPos, resolveOverlaps, orderedPairs, resolveStep,
      resolvePair, resolvedPos, blocksOverlapB, HORIZONTAL_SPACING, VERTICAL_SPACING,
      BLOCK_HEIGHT, BLOCK_WIDTH, MIN_SPACING, List.find?_cons, List.filter_cons,
      c2_bs, mkBranch]

/-- C6: for every branch mapping with duplicate-free ids and a unique root,
and every canvas center, the full layout (tree placement followed by the
overlap-resolution pass) maps the root exactly to the canvas center: the
pass never displaces the root, which is the first entry of the positions
record and never the second element of a compared pair. -/
theorem c6_root_at_center (bs : List Branch) (c : Point) (r : Branch)
    (hnd : (bs.map Branch.id).Nodup)
    (hroot : bs.filter (fun b => b.parentBranchId.isNone) = [r]) :
    lookupPos (calculateOptimalBranchPositions bs c) r.id = some c := by
  have hfind : bs.find? (fun b => b.parentBranchId.isNone) = some r := by
    rw [find?_eq_head?_filter, hroot]
    rfl
  exact layout_root_lookup bs c r hnd hfind

/-- C6 witness: a two-branch tree, root at the center (800, 400). -/
theorem c6_witness :
    lookupPos (calculateOptimalBranchPositions c6_bs ⟨800, 400⟩) "main" = some ⟨800, 400⟩ :=
  c6_root_at_center c6_bs ⟨800, 400⟩ (mkBranch "main" none) (by decide) (by decide)


/-- C3 counterexample: starting from a conversation whose only branch is the
root at (800, 400) and creating two child branches of the root in sequence,
the first child lands at (1250, 285), not at (1250, 400) or (350, 400): the
reserved band max(1 * 150, 380) = 380 is centered on the parent, so the
single child takes y = 400 - 190 + 75 = 285. -/
theorem c3_counterexample :
    ((c3_final.branches.find? (fun b => decide (b.id = "b1"))).map Branch.position
      = some ⟨1250, 285⟩)
    ∧ (⟨1250, 285⟩ : Point) ≠ ⟨1250, 400⟩
    ∧ (⟨1250, 285⟩ : Point) ≠ ⟨350, 400⟩ := by
  refine ⟨?_, by decide, by decide⟩
  norm_num +decide [c3_final, c3_conv0, mkBranch, handleCreateBranch, handleSwitchBranch,
    upsertBranch, newBranchOf, calculateOptimalBranchPositions, positionChildren,
    positionKids, childrenOf, childXY, upsert, lookupPos, resolveOverlaps, orderedPairs,
    resolveStep, resolvePair, resolvedPos, blocksOverlapB, HORIZONTAL_SPACING,
    VERTICAL_SPACING, BLOCK_HEIGHT, BLOCK_WIDTH, MIN_SPACING, List.find?_cons,
    List.filter_cons, List.getLast?]

/-- C3 (amended): in the scenario of the claim the first child is created on
the right side at (1250, 285) and the second on the opposite side of the
root at (350, 435): opposite horizontal sides hold, but the y-coordinates
are 285 and 435 = 285 + 150 (one vertical slot below), not 400 and not
equal to each other. -/
theorem c3_two_children_scenario :
    ((c3_final.branches.find? (fun b => decide (b.id = "b1"))).map Branch.position
      = some ⟨1250, 285⟩)
    ∧ ((c3_final.branches.find? (fun b => decide (b.id = "b2"))).map Branch.position
      = some ⟨350, 435⟩)
    ∧ ((c3_final.branches.find? (fun b => decide (b.id = "b1"))).map Branch.parentBranchId
      = some (some "main"))
    ∧ ((c3_final.branches.find? (fun b => decide (b.id = "b2"))).map Branch.parentBranchId
      = some (some "main")) := by
  refine ⟨?_, ?_, ?_, ?_⟩ <;>
    norm_num +decide [c3_final, c3_conv0, mkBranch, handleCreateBranch, handleSwitchBranch,
      upsertBranch, newBranchOf, calculateOptimalBranchPositions, positionChildren,
      positionKids, childrenOf, childXY, upsert, lookupPos, resolveOverlaps, orderedPairs,
      resolveStep, resolvePair, resolvedPos, blocksOverlapB, HORIZONTAL_SPACING,
      VERTICAL_SPACING, BLOCK_HEIGHT, BLOCK_WIDTH, MIN_SPACING, List.find?_cons,
      List.filter_cons, List.getLast?]


/-- C5 (amended): for a branch mapping with duplicate-free ids, a unique
root and exactly one branch d whose parentBranchId names a nonexistent id
(every other branch reachable from the root), the layout still produces a
position for every other branch, and the dangling branch is silently
omitted from the returned mapping: no position, and no reported condition
of any kind, since the result type carries positions only. -/
theorem c5_dangling_parent (bs : List Branch) (c : Point) (r d : Branch) (p : String)
    (hnd : (bs.map Branch.id).Nodup)
    (hfind : bs.find? (fun b => b.parentBranchId.isNone) = some r)
    (hd : d ∈ bs) (hdp : d.parentBranchId = some p) (hpno : p ∉ bs.map Branch.id)
    (hreach : ∀ b ∈ bs, b ≠ d → ∃ k, k ≤ bs.length ∧ Desc bs r b k) :
    (∀ b ∈ bs, b ≠ d →
        (lookupPos (calculateOptimalBranchPositions bs c) b.id).isSome)
    ∧ lookupPos (calculateOptimalBranchPositions bs c) d.id = none := by
  constructor
  · intro b hb hbd
    obtain ⟨k, hk, hdesc⟩ := hreach b hb hbd
    rw [calculate_eq_of_find hfind]
    apply resolveOverlaps_isSome
    apply positionChildren_reaches bs hdesc bs.length [(r.id, c)] hk
    simp [lookupPos]
  · have hrmem : r ∈ bs := List.mem_of_find?_eq_some hfind
    have hrnone : r.parentBranchId = none := by
      have h2 := List.find?_some hfind
      simpa using h2
    have hdnotchild : ∀ pid, pid = r.id ∨ pid ∈ bs.map Branch.id →
        d.id ∉ childrenOf bs pid := by
      intro pid hpid hmem
      rcases mem_childrenOf_iff.1 hmem with ⟨b2, hb2, hb2p, hb2id⟩
      have hb2d : b2 = d := branch_id_inj hnd hb2 hd hb2id
      rw [hb2d, hdp] at hb2p
      have hpp : p = pid := Option.some.inj hb2p
      rcases hpid with hpid | hpid
      · apply hpno
        rw [hpp, hpid]
        exact List.mem_map_of_mem Branch.id hrmem
      · apply hpno
        rw [hpp]
        exact hpid
    have hdr : ¬ d.id = r.id := by
      intro hh
      have hdr2 : d = r := branch_id_inj hnd hd hrmem hh
      rw [hdr2, hrnone] at hdp
      simp at hdp
    rw [calculate_eq_of_find hfind]
    apply resolveOverlaps_lookup_none
    rw [positionChildren_lookup_eq bs d.id
        (fun pid hpid => hdnotchild pid (Or.inr hpid)) bs.length r.id [(r.id, c)]
        (hdnotchild r.id (Or.inl rfl))]
    simp [lookupPos, hdr]

/-- C5 witness: root main with child g and a dangler d pointing at the
nonexistent id ghost: g gets a position, d gets none. -/
theorem c5_witness :
    (lookupPos (calculateOptimalBranchPositions c5_bs ⟨800, 400⟩) "g").isSome = true
    ∧ lookupPos (calculateOptimalBranchPositions c5_bs ⟨800, 400⟩) "d" = none := by
  have hr : ∀ b ∈ c5_bs, b ≠ c5_d → ∃ k, k ≤ c5_bs.length ∧ Desc c5_bs c5_main b k := by
    intro b hb hbd
    have hb2 : b = c5_main ∨ b = c5_g ∨ b = c5_d := by
      simpa [c5_bs] using hb
    rcases hb2 with rfl | rfl | rfl
    · exact ⟨0, Nat.zero_le _, Desc.refl c5_main⟩
    · exact ⟨1, by decide, Desc.step c5_main c5_g c5_g 0 (by decide) (by decide)
        (Desc.refl c5_g)⟩
    · exact absurd rfl hbd
  have h := c5_dangling_parent c5_bs ⟨800, 400⟩ c5_main c5_d "ghost"
    (by decide) (by decide) (by decide) (by decide) (by decide) hr
  exact ⟨h.1 c5_g (by decide) (by decide), h.2⟩

/-- C5 counterexample: on the dangling input the returned record is exactly
the positions of the two well-formed branches; nothing in the output
identifies the offending branch d and no DanglingParent condition is
reported anywhere -- the offender is silently dropped. -/
theorem c5_counterexample :
    calculateOptimalBranchPositions c5_bs ⟨800, 400⟩
      = [("main", ⟨800, 400⟩), ("g", ⟨1250, 285⟩)]
    ∧ lookupPos (calculateOptimalBranchPositions c5_bs ⟨800, 400⟩) "d" = none := by
  constructor <;>
    norm_num +decide [calculateOptimalBranchPositions, positionChildren, positionKids,
      childrenOf, childXY, upsert, lookupPos, resolveOverlaps, orderedPairs, resolveStep,
      resolvePair, resolvedPos, blocksOverlapB, HORIZONTAL_SPACING, VERTICAL_SPACING,
      BLOCK_HEIGHT, BLOCK_WIDTH, MIN_SPACING, List.find?_cons, List.filter_cons,
      c5_bs, c5_main, c5_g, c5_d, mkBranch]


/-- C7: whenever the active conversation identity changes, the recenter
effect sets canvasOffset once by absolute value -- the result does not
depend on the previous offset -- so that the root branch (looked up by its
id main) lands exactly at the center of the visible viewport:
offset = (viewportWidth / 2 - root.x, viewportHeight / 2 - root.y). -/
theorem c7_recenter_absolute (conv : Conversation) (w h : ℚ) (r : Branch)
    (hnd : (conv.branches.map Branch.id).Nodup)
    (hroot : conv.branches.filter (fun b => b.parentBranchId.isNone) = [r])
    (hmain : r.id = "main") (prevOffset : Point) :
    recenterOffset conv w h prevOffset
      = ⟨w / 2 - r.position.x, h / 2 - r.position.y⟩
    ∧ r.position.x + (recenterOffset conv w h prevOffset).x = w / 2
    ∧ r.position.y + (recenterOffset conv w h prevOffset).y = h / 2 := by
  have hrmem : r ∈ conv.branches := by
    have h2 : r ∈ conv.branches.filter (fun b => b.parentBranchId.isNone) := by
      rw [hroot]
      exact List.mem_cons_self _ _
    exact (List.mem_filter.1 h2).1
  have hfind : conv.branches.find? (fun b => decide (b.id = "main")) = some r := by
    have h2 := find?_id_of_mem hnd hrmem
    rw [hmain] at h2
    exact h2
  have heq : recenterOffset conv w h prevOffset
      = ⟨w / 2 - r.position.x, h / 2 - r.position.y⟩ := by
    unfold recenterOffset
    rw [hfind]
  refine ⟨heq, ?_, ?_⟩
  · rw [heq]
    show r.position.x + (w / 2 - r.position.x) = w / 2
    ring
  · rw [heq]
    show r.position.y + (h / 2 - r.position.y) = h / 2
    ring

/-- C7 witness: a conversation with its root main at (800, 400), a viewport
of 1600 by 800 and an arbitrary previous offset (123, -7): the offset is
set absolutely and maps the root to the viewport center. -/
theorem c7_witness :
    recenterOffset c7_conv 1600 800 ⟨123, -7⟩ = ⟨1600 / 2 - 800, 800 / 2 - 400⟩
    ∧ 800 + (recenterOffset c7_conv 1600 800 ⟨123, -7⟩).x = 1600 / 2
    ∧ 400 + (recenterOffset c7_conv 1600 800 ⟨123, -7⟩).y = 800 / 2 :=
  c7_recenter_absolute c7_conv 1600 800
    { mkBranch "main" none with position := ⟨800, 400⟩ }
    (by decide) (by decide) (by decide) ⟨123, -7⟩

/-- C8 (amended): a branch committed from an active branch with at least one
message receives exactly one message: an inherited copy (isInherited true,
id prefixed with the inherited marker) of the most-recent message of the
active branch -- whether or not that message is itself inherited.  The
handler takes messages[length - 1] without filtering isInherited; only the
separate UI gate makes that message non-inherited in app flows. -/
theorem c8_inherited_seed (conv : Conversation) (newBranchId : String)
    (ab : Branch) (m : Message)
    (hact : conv.branches.find? (fun b => decide (b.id = conv.activeBranchId)) = some ab)
    (hlast : ab.messages.getLast? = some m)
    (hfresh : newBranchId ∉ conv.branches.map Branch.id) :
    ((handleCreateBranch conv newBranchId).branches.find?
        (fun b => decide (b.id = newBranchId))).map Branch.messages
      = some [{ m with id := "inherited-" ++ m.id, isInherited := true }] := by
  rw [handleCreateBranch_branches_eq conv newBranchId ab m hact hlast]
  have hfresh2 : (newBranchOf ab m newBranchId).id ∉ conv.branches.map Branch.id := hfresh
  rw [upsertBranch_append hfresh2]
  rw [find?_id_map_append conv.branches (newBranchOf ab m newBranchId) newBranchId
      (fun b =>
        { b with position :=
            (lookupPos
              (calculateOptimalBranchPositions
                (conv.branches ++ [newBranchOf ab m newBranchId]) conv.canvasCenter)
              b.id).getD b.position })
      (fun b => rfl) rfl hfresh]
  rfl

/-- C8 witness: committing b1 from a root whose single message is the
non-inherited hello: the new branch carries exactly the inherited copy. -/
theorem c8_witness :
    ((handleCreateBranch c8_wconv "b1").branches.find?
        (fun b => decide (b.id = "b1"))).map Branch.messages
      = some [{ (⟨"1", "hello", Role.user, 0, false⟩ : Message) with
                  id := "inherited-" ++ "1", isInherited := true }] :=
  c8_inherited_seed c8_wconv "b1"
    { mkBranch "main" none with
        messages := [⟨"1", "hello", Role.user, 0, false⟩], position := ⟨800, 400⟩ }
    ⟨"1", "hello", Role.user, 0, false⟩ (by decide) (by decide) (by decide)

/-- C8 counterexample: the active branch b1 holds a non-inherited message
u1 followed by an inherited one; its most-recent non-inherited message is
u1 (newmsg), but the committed branch b2 receives a copy of the inherited
hello message (id inherited-inherited-1), not an inherited copy of u1 --
the code copies the last message regardless of isInherited. -/
theorem c8_counterexample :
    ((handleCreateBranch c8_conv "b2").branches.find?
        (fun b => decide (b.id = "b2"))).map Branch.messages
      = some [⟨"inherited-inherited-1", "hello", Role.assistant, 0, true⟩]
    ∧ ((c8_conv.branches.find? (fun b => decide (b.id = "b1"))).map
        (fun b => (b.messages.filter (fun msg => !msg.isInherited)).getLast?))
      = some (some ⟨"u1", "newmsg", Role.user, 1, false⟩)
    ∧ ([(⟨"inherited-inherited-1", "hello", Role.assistant, 0, true⟩ : Message)]
        ≠ [{ (⟨"u1", "newmsg", Role.user, 1, false⟩ : Message) with
              id := "inherited-" ++ "u1", isInherited := true }]) := by
  refine ⟨?_, by decide, by decide⟩
  norm_num +decide [c8_conv, mkBranch, handleCreateBranch, upsertBranch,
    calculateOptimalBranchPositions, positionChildren, positionKids, childrenOf, childXY,
    upsert, lookupPos, resolveOverlaps, orderedPairs, resolveStep, resolvePair,
    resolvedPos, blocksOverlapB, HORIZONTAL_SPACING, VERTICAL_SPACING, BLOCK_HEIGHT,
    BLOCK_WIDTH, MIN_SPACING, List.find?_cons, List.filter_cons, List.getLast?]

/-- C10: after every successful create-branch call (active branch found and
nonempty), the conversation activeBranchId equals the new branch id, and
that id resolves to an entry of the updated branches mapping. -/
theorem c10_active_branch_switch (conv : Conversation) (newBranchId : String)
    (ab : Branch) (m : Message)
    (hact : conv.branches.find? (fun b => decide (b.id = conv.activeBranchId)) = some ab)
    (hlast : ab.messages.getLast? = some m) :
    (handleCreateBranch conv newBranchId).activeBranchId = newBranchId
    ∧ ((handleCreateBranch conv newBranchId).branches.find?
        (fun b => decide (b.id = newBranchId))).isSome = true := by
  refine ⟨handleCreateBranch_active_eq conv newBranchId ab m hact hlast, ?_⟩
  rw [handleCreateBranch_branches_eq conv newBranchId ab m hact hlast]
  obtain ⟨b, hb, hbid⟩ := upsertBranch_exists_id conv.branches (newBranchOf ab m newBranchId)
  apply List.find?_isSome.2
  refine ⟨_, List.mem_map_of_mem
    (fun b =>
      { b with position :=
          (lookupPos
            (calculateOptimalBranchPositions
              (upsertBranch conv.branches (newBranchOf ab m newBranchId))
              conv.canvasCenter)
            b.id).getD b.position }) hb, ?_⟩
  simp [hbid, newBranchOf]

/-- C10 witness: creating b1 from the root-only conversation switches the
active branch to b1 and b1 resolves in the updated mapping. -/
theorem c10_witness :
    (handleCreateBranch c10_conv "b1").activeBranchId = "b1"
    ∧ ((handleCreateBranch c10_conv "b1").branches.find?
        (fun b => decide (b.id = "b1"))).isSome = true :=
  c10_active_branch_switch c10_conv "b1"
    { mkBranch "main" none with
        messages := [⟨"1", "hello", Role.user, 0, false⟩], position := ⟨800, 400⟩ }
    ⟨"1", "hello", Role.user, 0, false⟩ (by decide) (by decide)


/-- C4 (amended): about the single overlap-resolution pass, on a positions
record with duplicate-free keys.  (1) The pass never changes any block's
x-coordinate (and it neither adds nor removes keys).  (2) A block that is
not the second element of any pre-pass overlapping pair keeps its position
unchanged.  (3) Provided no block takes part in two different pre-pass
overlapping pairs, every pre-pass overlapping pair ends the pass with the
first block unmoved and the second block at x unchanged and
y = first.y + (BLOCK_HEIGHT + MIN_SPACING) when its y was already at least
the first block y, y = first.y - (BLOCK_HEIGHT + MIN_SPACING) otherwise, so
the pair's post-pass vertical distance is exactly BLOCK_HEIGHT + MIN_SPACING
(= 430).  Without the disjointness proviso the claimed distance bound is
false: see the counterexample, where a block displaced by one pair is the
first element of a later pre-pass pair whose second block is displaced to
the same y. -/
theorem c4_overlap_resolution (ps : PosMap) (hnd : (ps.map Prod.fst).Nodup) :
    (∀ k, (lookupPos (resolveOverlaps ps) k).map Point.x
        = (lookupPos ps k).map Point.x)
    ∧ (∀ k, (∀ pr ∈ orderedPairs ps, blocksOverlapB pr.1.2 pr.2.2 = true → pr.2.1 ≠ k) →
        lookupPos (resolveOverlaps ps) k = lookupPos ps k)
    ∧ (disjointOverlaps ps →
        ∀ pr ∈ orderedPairs ps, blocksOverlapB pr.1.2 pr.2.2 = true →
          lookupPos (resolveOverlaps ps) pr.1.1 = some pr.1.2
          ∧ lookupPos (resolveOverlaps ps) pr.2.1
              = some ⟨pr.2.2.x,
                  if pr.1.2.y ≤ pr.2.2.y then pr.1.2.y + (BLOCK_HEIGHT + MIN_SPACING)
                  else pr.1.2.y - (BLOCK_HEIGHT + MIN_SPACING)⟩
          ∧ BLOCK_HEIGHT + MIN_SPACING ≤
              |pr.1.2.y -
                (if pr.1.2.y ≤ pr.2.2.y then pr.1.2.y + (BLOCK_HEIGHT + MIN_SPACING)
                 else pr.1.2.y - (BLOCK_HEIGHT + MIN_SPACING))|) := by
  refine ⟨?_, ?_, ?_⟩
  · intro k
    have h := foldl_resolve_x_inv hnd (orderedPairs ps) ps
      (fun pr hpr => (mem_orderedPairs hpr).2) (fun q => rfl) k
    simpa [resolveOverlaps] using h
  · intro k hk
    have h := foldl_resolve_lookup_eq (orderedPairs ps) ps hk
    simpa [resolveOverlaps] using h
  · intro hdisj pr hpr hov
    have hstable2 : lookupPos (resolveOverlaps ps) pr.2.1
        = some (resolvedPos pr.1.2 pr.2.2) := by
      obtain ⟨L1, L2, hsplit⟩ := List.append_of_mem hpr
      unfold resolveOverlaps
      rw [hsplit, List.foldl_append, List.foldl_cons]
      apply foldl_resolve_stable
      · show lookupPos (resolveStep (List.foldl resolveStep ps L1) pr) pr.2.1
            = some (resolvedPos pr.1.2 pr.2.2)
        unfold resolveStep resolvePair
        rw [if_pos hov, lookupPos_upsert, if_pos rfl]
      · intro qr hqr hovq hkk
        have hqr2 : qr ∈ orderedPairs ps := by
          rw [hsplit]
          exact List.mem_append.2 (Or.inr (List.mem_cons_of_mem _ hqr))
        rcases hdisj pr hpr qr hqr2 hov hovq with heq | hne
        · rw [← heq]
        · exact absurd hkk.symm hne.2.2.2
    refine ⟨?_, ?_, ?_⟩
    · have hbase : lookupPos ps pr.1.1 = some pr.1.2 :=
        lookupPos_of_mem_nodup (mem_orderedPairs hpr).1 hnd
      have hk : ∀ qr ∈ orderedPairs ps, blocksOverlapB qr.1.2 qr.2.2 = true →
          qr.2.1 ≠ pr.1.1 := by
        intro qr hqr hovq hkk
        rcases hdisj pr hpr qr hqr hov hovq with heq | hne
        · rw [← heq] at hkk
          exact fst_ne_snd_key_of_orderedPairs hnd hpr hkk.symm
        · exact hne.2.1 hkk.symm
      have h := foldl_resolve_lookup_eq (orderedPairs ps) ps hk
      unfold resolveOverlaps
      rw [h, hbase]
    · rw [hstable2]
      by_cases hc : pr.1.2.y ≤ pr.2.2.y <;> simp [resolvedPos, hc]
    · by_cases hc : pr.1.2.y ≤ pr.2.2.y
      · rw [if_pos hc,
          show pr.1.2.y - (pr.1.2.y + (BLOCK_HEIGHT + MIN_SPACING))
            = -(BLOCK_HEIGHT + MIN_SPACING) by ring,
          abs_neg, abs_of_nonneg (by norm_num [BLOCK_HEIGHT, MIN_SPACING])]
      · rw [if_neg hc,
          show pr.1.2.y - (pr.1.2.y - (BLOCK_HEIGHT + MIN_SPACING))
            = BLOCK_HEIGHT + MIN_SPACING by ring,
          abs_of_nonneg (by norm_num [BLOCK_HEIGHT, MIN_SPACING])]

/-- C4 witness: two blocks at (0, 0) and (0, 400) overlap before the pass
and no block is in two overlapping pairs; after the pass the first is
unmoved and the second sits at (0, 0 + 430). -/
theorem c4_witness :
    lookupPos (resolveOverlaps [("a", ⟨0, 0⟩), ("b", ⟨0, 400⟩)]) "a" = some ⟨0, 0⟩
    ∧ lookupPos (resolveOverlaps [("a", ⟨0, 0⟩), ("b", ⟨0, 400⟩)]) "b"
        = some ⟨0, (0 : ℚ) + (BLOCK_HEIGHT + MIN_SPACING)⟩ := by
  have hd : disjointOverlaps [("a", ⟨0, 0⟩), ("b", ⟨0, 400⟩)] := by
    intro p hp q hq hop hoq
    left
    simp [orderedPairs] at hp hq
    rw [hp, hq]
  have hm : ((("a", (⟨0, 0⟩ : Point)), ("b", (⟨0, 400⟩ : Point))))
      ∈ orderedPairs [("a", ⟨0, 0⟩), ("b", ⟨0, 400⟩)] := by
    simp [orderedPairs]
  have ho : blocksOverlapB (⟨0, 0⟩ : Point) ⟨0, 400⟩ = true := by
    norm_num [blocksOverlapB, BLOCK_WIDTH, BLOCK_HEIGHT, MIN_SPACING]
  have h := (c4_overlap_resolution [("a", ⟨0, 0⟩), ("b", ⟨0, 400⟩)] (by decide)).2.2
    hd (("a", ⟨0, 0⟩), ("b", ⟨0, 400⟩)) hm ho
  refine ⟨h.1, ?_⟩
  rw [h.2.1]
  norm_num

/-- C4 counterexample: three blocks all at (0, 0).  Every pair overlaps
before the pass; after the single pass b and c both sit at (0, 430), so the
pre-pass overlapping pair (b, c) has post-pass vertical distance 0, well
below BLOCK_HEIGHT + MIN_SPACING = 430 -- the claimed universal post-pass
separation is false. -/
theorem c4_counterexample :
    blocksOverlapB (⟨0, 0⟩ : Point) ⟨0, 0⟩ = true
    ∧ resolveOverlaps [("a", ⟨0, 0⟩), ("b", ⟨0, 0⟩), ("c", ⟨0, 0⟩)]
        = [("a", ⟨0, 0⟩), ("b", ⟨0, 430⟩), ("c", ⟨0, 430⟩)]
    ∧ |(430 : ℚ) - 430| < BLOCK_HEIGHT + MIN_SPACING := by
  refine ⟨?_, ?_, ?_⟩ <;>
    norm_num +decide [resolveOverlaps, orderedPairs, resolveStep, resolvePair, resolvedPos,
      blocksOverlapB, upsert, lookupPos, BLOCK_WIDTH, BLOCK_HEIGHT, MIN_SPACING]



theorem connectionGeometry_right (P C : Branch) (h : P.position.x < C.position.x) :
    connectionGeometry P C
      = ⟨P.position.x + 160, P.position.y, C.position.x - 160, C.position.y,
         (P.position.x + 160)
           + (if P.position.x + 160 < C.position.x - 160
              then min (max (|(C.position.x - 160) - (P.position.x + 160)| * (3 / 10)) 80) 150
              else -(min (max (|(C.position.x - 160) - (P.position.x + 160)| * (3 / 10)) 80) 150)),
         (C.position.x - 160)
           + (if P.position.x + 160 < C.position.x - 160
              then -(min (max (|(C.position.x - 160) - (P.position.x + 160)| * (3 / 10)) 80) 150)
              else min (max (|(C.position.x - 160) - (P.position.x + 160)| * (3 / 10)) 80) 150),
         min (P.position.x + 160) (C.position.x - 160) - 50,
         max (P.position.x + 160) (C.position.x - 160) + 50,
         min P.position.y C.position.y - 50,
         max P.position.y C.position.y + 50⟩ := by
  have hnl : ¬(C.position.x < P.position.x) := not_lt.2 (le_of_lt h)
  simp [connectionGeometry, calculateConnectionPoints, h, hnl]

theorem connectionGeometry_left (P C : Branch) (h : C.position.x < P.position.x) :
    connectionGeometry P C
      = ⟨P.position.x - 160, P.position.y, C.position.x + 160, C.position.y,
         (P.position.x - 160)
           + (if P.position.x - 160 < C.position.x + 160
              then min (max (|(C.position.x + 160) - (P.position.x - 160)| * (3 / 10)) 80) 150
              else -(min (max (|(C.position.x + 160) - (P.position.x - 160)| * (3 / 10)) 80) 150)),
         (C.position.x + 160)
           + (if P.position.x - 160 < C.position.x + 160
              then -(min (max (|(C.position.x + 160) - (P.position.x - 160)| * (3 / 10)) 80) 150)
              else min (max (|(C.position.x + 160) - (P.position.x - 160)| * (3 / 10)) 80) 150),
         min (P.position.x - 160) (C.position.x + 160) - 50,
         max (P.position.x - 160) (C.position.x + 160) + 50,
         min P.position.y C.position.y - 50,
         max P.position.y C.position.y + 50⟩ := by
  have hnr : ¬(P.position.x < C.position.x) := not_lt.2 (le_of_lt h)
  simp [connectionGeometry, calculateConnectionPoints, h, hnr]

theorem connectionGeometry_fields (parentBranch childBranch : Branch)
    (hr : parentBranch.position.x < childBranch.position.x) :
    (connectionGeometry parentBranch childBranch).startX = parentBranch.position.x + 160
    ∧ (connectionGeometry parentBranch childBranch).endX = childBranch.position.x - 160
    ∧ (connectionGeometry parentBranch childBranch).controlX1
        = (parentBranch.position.x + 160) + (if parentBranch.position.x + 160 < childBranch.position.x - 160 then min (max (|(childBranch.position.x - 160) - (parentBranch.position.x + 160)| * (3 / 10)) 80) 150 else -(min (max (|(childBranch.position.x - 160) - (parentBranch.position.x + 160)| * (3 / 10)) 80) 150))
    ∧ (connectionGeometry parentBranch childBranch).controlX2
        = (childBranch.position.x - 160) + (if parentBranch.position.x + 160 < childBranch.position.x - 160 then -(min (max (|(childBranch.position.x - 160) - (parentBranch.position.x + 160)| * (3 / 10)) 80) 150) else min (max (|(childBranch.position.x - 160) - (parentBranch.position.x + 160)| * (3 / 10)) 80) 150) := by
  rw [connectionGeometry_right parentBranch childBranch hr]
  exact ⟨rfl, rfl, rfl, rfl⟩

theorem connectionGeometry_mirror_fields (parentBranch childBranch : Branch)
    (hr : parentBranch.position.x < childBranch.position.x) :
    (connectionGeometry parentBranch (mirrorChild parentBranch childBranch)).startX = parentBranch.position.x - 160
    ∧ (connectionGeometry parentBranch (mirrorChild parentBranch childBranch)).endX = 2 * parentBranch.position.x - childBranch.position.x + 160
    ∧ (connectionGeometry parentBranch (mirrorChild parentBranch childBranch)).controlX1
        = (parentBranch.position.x - 160) + (if parentBranch.position.x - 160 < 2 * parentBranch.position.x - childBranch.position.x + 160 then min (max (|(2 * parentBranch.position.x - childBranch.position.x + 160) - (parentBranch.position.x - 160)| * (3 / 10)) 80) 150 else -(min (max (|(2 * parentBranch.position.x - childBranch.position.x + 160) - (parentBranch.position.x - 160)| * (3 / 10)) 80) 150))
    ∧ (connectionGeometry parentBranch (mirrorChild parentBranch childBranch)).controlX2
        = (2 * parentBranch.position.x - childBranch.position.x + 160) + (if parentBranch.position.x - 160 < 2 * parentBranch.position.x - childBranch.position.x + 160 then -(min (max (|(2 * parentBranch.position.x - childBranch.position.x + 160) - (parentBranch.position.x - 160)| * (3 / 10)) 80) 150) else min (max (|(2 * parentBranch.position.x - childBranch.position.x + 160) - (parentBranch.position.x - 160)| * (3 / 10)) 80) 150) := by
  have hml : (mirrorChild parentBranch childBranch).position.x < parentBranch.position.x := by
    show 2 * parentBranch.position.x - childBranch.position.x < parentBranch.position.x
    linarith
  rw [connectionGeometry_left parentBranch _ hml]
  exact ⟨rfl, rfl, rfl, rfl⟩

/-- C9 (amended): for a positioned parent/child pair with child.x > parent.x
and child.x - parent.x different from 320 (the degenerate gap at which the
two anchors coincide), the edge anchors at the parent right edge and the
child left edge; the control points sit at horizontal distance
clamp(|endX - startX| * 0.3, 80, 150) from their anchors, applied along the
edge direction with opposite signs at the two ends; and the mirrored pair
(child reflected to the opposite side at the same vertical offset) has
control-point offsets of the same magnitude and opposite sign.  At
child.x - parent.x = 320 the mirror symmetry fails: see the
counterexample. -/
theorem c9_edge_symmetry (parentBranch childBranch : Branch)
    (hr : parentBranch.position.x < childBranch.position.x)
    (hne : childBranch.position.x - parentBranch.position.x ≠ 320) :
    (connectionGeometry parentBranch childBranch).startX = parentBranch.position.x + 160
    ∧ (connectionGeometry parentBranch childBranch).endX = childBranch.position.x - 160
    ∧ |(connectionGeometry parentBranch childBranch).controlX1 - (connectionGeometry parentBranch childBranch).startX|
        = min (max (|(connectionGeometry parentBranch childBranch).endX - (connectionGeometry parentBranch childBranch).startX| * (3 / 10)) 80) 150
    ∧ (connectionGeometry parentBranch childBranch).controlX2 - (connectionGeometry parentBranch childBranch).endX = -((connectionGeometry parentBranch childBranch).controlX1 - (connectionGeometry parentBranch childBranch).startX)
    ∧ (connectionGeometry parentBranch (mirrorChild parentBranch childBranch)).controlX1 - (connectionGeometry parentBranch (mirrorChild parentBranch childBranch)).startX = -((connectionGeometry parentBranch childBranch).controlX1 - (connectionGeometry parentBranch childBranch).startX)
    ∧ (connectionGeometry parentBranch (mirrorChild parentBranch childBranch)).controlX2 - (connectionGeometry parentBranch (mirrorChild parentBranch childBranch)).endX = -((connectionGeometry parentBranch childBranch).controlX2 - (connectionGeometry parentBranch childBranch).endX) := by
  obtain ⟨hs1, he1, hc1, hd1⟩ := connectionGeometry_fields parentBranch childBranch hr
  obtain ⟨hs2, he2, hc2, hd2⟩ := connectionGeometry_mirror_fields parentBranch childBranch hr
  have hoffeq : (min (max (|(2 * parentBranch.position.x - childBranch.position.x + 160) - (parentBranch.position.x - 160)| * (3 / 10)) 80) 150) = (min (max (|(childBranch.position.x - 160) - (parentBranch.position.x + 160)| * (3 / 10)) 80) 150) := by
    rw [show (2 * parentBranch.position.x - childBranch.position.x + 160) - (parentBranch.position.x - 160)
        = -((childBranch.position.x - 160) - (parentBranch.position.x + 160)) by ring, abs_neg]
  have hoffpos : (0 : ℚ) ≤ min (max (|(childBranch.position.x - 160) - (parentBranch.position.x + 160)| * (3 / 10)) 80) 150 :=
    le_min (le_trans (by norm_num) (le_max_right _ _)) (by norm_num)
  rw [hs1, he1, hc1, hd1, hs2, he2, hc2, hd2, hoffeq]
  by_cases h32 : parentBranch.position.x + 160 < childBranch.position.x - 160
  · have h32m : ¬(parentBranch.position.x - 160 < 2 * parentBranch.position.x - childBranch.position.x + 160) := by
      intro hh
      linarith
    rw [if_pos h32, if_pos h32, if_neg h32m, if_neg h32m]
    refine ⟨rfl, rfl, ?_, by ring, by ring, by ring⟩
    rw [show parentBranch.position.x + 160 + (min (max (|(childBranch.position.x - 160) - (parentBranch.position.x + 160)| * (3 / 10)) 80) 150) - (parentBranch.position.x + 160) = (min (max (|(childBranch.position.x - 160) - (parentBranch.position.x + 160)| * (3 / 10)) 80) 150) by ring]
    exact abs_of_nonneg hoffpos
  · have hlt : childBranch.position.x - parentBranch.position.x < 320 := lt_of_le_of_ne (by linarith) hne
    have h32m : parentBranch.position.x - 160 < 2 * parentBranch.position.x - childBranch.position.x + 160 := by linarith
    rw [if_neg h32, if_neg h32, if_pos h32m, if_pos h32m]
    refine ⟨rfl, rfl, ?_, by ring, by ring, by ring⟩
    rw [show parentBranch.position.x + 160 + -(min (max (|(childBranch.position.x - 160) - (parentBranch.position.x + 160)| * (3 / 10)) 80) 150) - (parentBranch.position.x + 160) = -(min (max (|(childBranch.position.x - 160) - (parentBranch.position.x + 160)| * (3 / 10)) 80) 150) by ring, abs_neg]
    exact abs_of_nonneg hoffpos

/-- C9 witness: parent at (0, 0), child at (450, 100): anchors are the
parent right edge and the child left edge, and the mirrored pair negates
the start control offset. -/
theorem c9_witness :
    (connectionGeometry c9_p (mirrorChild c9_p c9_wc)).controlX1
        - (connectionGeometry c9_p (mirrorChild c9_p c9_wc)).startX
      = -((connectionGeometry c9_p c9_wc).controlX1
        - (connectionGeometry c9_p c9_wc).startX)
    ∧ (connectionGeometry c9_p c9_wc).startX = c9_p.position.x + 160
    ∧ (connectionGeometry c9_p c9_wc).endX = c9_wc.position.x - 160 := by
  have h := c9_edge_symmetry c9_p c9_wc (by norm_num [c9_p, c9_wc, mkBranch])
    (by norm_num [c9_p, c9_wc, mkBranch])
  exact ⟨h.2.2.2.2.1, h.1, h.2.1⟩

/-- C9 counterexample: parent at (0, 0), child at (320, 100), a pair with
child.x > parent.x whose anchors coincide (anchor gap zero).  The control
offset of the original pair is -80 and that of the mirrored pair is also
-80: same sign, not opposite, so the mirror-symmetry claim fails at this
input. -/
theorem c9_counterexample :
    c9_p.position.x < c9_c.position.x
    ∧ (connectionGeometry c9_p c9_c).controlX1
        - (connectionGeometry c9_p c9_c).startX = -80
    ∧ (connectionGeometry c9_p (mirrorChild c9_p c9_c)).controlX1
        - (connectionGeometry c9_p (mirrorChild c9_p c9_c)).startX = -80
    ∧ ¬((-80 : ℚ) = -(-80)) := by
  refine ⟨?_, ?_, ?_, ?_⟩ <;>
    norm_num [connectionGeometry, calculateConnectionPoints, mirrorChild, c9_p, c9_c,
      mkBranch, min_def, max_def]

end Convex
